import Mathlib

/-!
Verification of the core computational engine of
`src/demonstrations/tutorial_ml_classical_shadows.py`.

Shallow-embedding conventions used throughout this file:

* numpy float arithmetic is idealized as exact arithmetic: rationals (`ℚ`)
  where the code only adds, multiplies, compares and divides, and reals (`ℝ`)
  where `np.log`, `np.linalg.norm` or `** 0.5` (square roots) occur;
* numpy matrices are lists of row lists, or total functions out of index
  pairs, as convenient for the statement being checked;
* a python function that can raise is embedded with an `Option` result,
  `none` marking the raising executions;
* external collaborators (`sklearn`, the eigensolver, `neural_tangents`) are
  abstracted as parameters, mirroring the spec's "external collaborator"
  boundary; everything inside that boundary is translated line by line.

Line numbers in doc comments refer to
`src/demonstrations/tutorial_ml_classical_shadows.py`.
-/

namespace MLShadows

/-! ### Definitions: the classical-shadow estimator (lines 377-406) -/

/-- Single-qubit Pauli labels; `map_name_to_int` (line 382) sends
PauliX ↦ 0, PauliY ↦ 1, PauliZ ↦ 2. -/
inductive PauliLabel
  | X
  | Y
  | Z
deriving DecidableEq

def pauliIdx : PauliLabel → ℕ
  | .X => 0
  | .Y => 1
  | .Z => 2

/-- A target observable: a tensor product of single-qubit Paulis given as
(qubit index, Pauli) pairs.  A one-element list is the single-operator case
of the `isinstance` branch (lines 383-388); both branches produce the same
pair of index lists. -/
abbrev TargetObs := List (ℕ × PauliLabel)

/-- `target_locs` (lines 385/388). -/
def obsLocs (o : TargetObs) : List ℕ := o.map Prod.fst

/-- `target_obs` (lines 384/387). -/
def obsIdxs (o : TargetObs) : List ℕ := o.map fun p => pauliIdx p.2

/-- A classical shadow: `meas` is the T×n matrix of ±1 outcomes
(`meas_outcomes`) and `bases` the T×n matrix of basis choices in {0,1,2}
(`unitary_ensmb`), both stored row-wise (one row per snapshot). -/
structure Shadow where
  meas : List (List ℚ)
  bases : List (List ℕ)

/-- `np.all(row[target_locs] == target_obs)` for one basis row:
the snapshot's basis agrees with the observable on every targeted qubit. -/
def rowMatches (brow : List ℕ) (locs tobs : List ℕ) : Bool :=
  (locs.zip tobs).all fun lt => brow.getD lt.1 3 == lt.2

/-- `np.prod(row[target_locs])`: product of the outcomes at the targeted
qubits of one measurement row. -/
def prodAt (mrow : List ℚ) (locs : List ℕ) : ℚ :=
  (locs.map fun l => mrow.getD l 0).prod

/-- The slice `xs[i : i + s]` (python slicing clamps at the end). -/
def pySlice {α : Type} (xs : List α) (i s : ℕ) : List α := (xs.drop i).take s

/-- The matching snapshots of one median-of-means group: rows of
`meas_list_k` zipped with `obs_lists_k` whose basis row matches
(`indices` at line 398). -/
def matchedRows (sh : Shadow) (o : TargetObs) (i s : ℕ) :
    List (List ℚ × List ℕ) :=
  ((pySlice sh.meas i s).zip (pySlice sh.bases i s)).filter fun r =>
    rowMatches r.2 (obsLocs o) (obsIdxs o)

/-- Number of elements of python `range(0, stop, step)`, for `step > 0`. -/
def pyRangeLen (stop step : ℕ) : ℕ := (stop + step - 1) / step

/-- Python `range(0, stop, step)` as a list, for `step > 0`. -/
def pyRange (stop step : ℕ) : List ℕ := List.range' 0 (pyRangeLen stop step) step

/-- The `means` list built by the loop of lines 391-404: iterate over group
start indices `range(0, shadow_size, shadow_size // k)` with slice width
`s = shadow_size // k`; a group with matching snapshots appends the mean of
the products over the matching snapshots, a group without appends 0. -/
def groupMeans (sh : Shadow) (o : TargetObs) (s : ℕ) : List ℚ :=
  (pyRange sh.meas.length s).foldl
    (fun means i =>
      if (matchedRows sh o i s).length ≠ 0 then
        means ++
          [((matchedRows sh o i s).map fun r => prodAt r.1 (obsLocs o)).sum /
            ((matchedRows sh o i s).length : ℚ)]
      else means ++ [0])
    []

/-- Insert into an ascending sorted list. -/
def insertSorted (x : ℚ) : List ℚ → List ℚ
  | [] => [x]
  | y :: ys => if x ≤ y then x :: y :: ys else y :: insertSorted x ys

/-- Ascending insertion sort (the sort underlying `np.median`). -/
def sortQ (l : List ℚ) : List ℚ := l.foldr insertSorted []

/-- `np.median`: sort, take the middle element for odd length and the
average of the two middle elements for even length. -/
def npMedian (l : List ℚ) : ℚ :=
  if (sortQ l).length % 2 = 1 then (sortQ l).getD ((sortQ l).length / 2) 0
  else
    ((sortQ l).getD ((sortQ l).length / 2 - 1) 0 +
      (sortQ l).getD ((sortQ l).length / 2) 0) / 2

/-- `estimate_shadow_observable` (lines 377-406).  The result is `none`
exactly when python raises: `range(0, T, T // k)` with `T // k = 0`
(`k > T`), or `T // k` itself raising (`k = 0`). -/
def estimate_shadow_observable (sh : Shadow) (o : TargetObs) (k : ℕ) :
    Option ℚ :=
  if sh.meas.length / k = 0 then none
  else some (npMedian (groupMeans sh o (sh.meas.length / k)))

/-- The entry the loop of lines 398-404 appends for the group starting at
snapshot `i`: the mean of the products over the matching snapshots, or 0
when no snapshot matches. -/
def groupEntry (sh : Shadow) (o : TargetObs) (s i : ℕ) : ℚ :=
  if (matchedRows sh o i s).length ≠ 0 then
    ((matchedRows sh o i s).map fun r => prodAt r.1 (obsLocs o)).sum /
      ((matchedRows sh o i s).length : ℚ)
  else 0

/-- Modelled from the claim's words (for comparison with the embedded
source function): partition the `T` snapshots into exactly `K` contiguous
groups of `⌊T/K⌋` snapshots each, drop the trailing `T - K⌊T/K⌋` remainder
snapshots, and median the `K` per-group estimates. -/
def claimedGroupMeans (sh : Shadow) (o : TargetObs) (k : ℕ) : List ℚ :=
  (List.range k).map fun g => groupEntry sh o (sh.meas.length / k)
    (g * (sh.meas.length / k))

/-- The estimate that claim C1 describes: median of the `K` per-group
means. -/
def claimedEstimate (sh : Shadow) (o : TargetObs) (k : ℕ) : ℚ :=
  npMedian (claimedGroupMeans sh o k)

/-! ### Definitions: coupling matrices (`build_coupling_mats`, lines 68-83) -/

/-- The row-major iteration order of `itertools.product(range n, range n)`
(line 78); also the row-major flattening order of an `n × n` matrix. -/
def pairList (n : ℕ) : List (ℕ × ℕ) :=
  (List.range n).flatMap fun i => (List.range n).map fun j => (i, j)

/-- The neighbour test of line 80:
`(j % num_cols and j - i == 1) or (j - i == num_cols)`, with python's exact
integer subtraction. -/
def isEdge (C : ℕ) (p : ℕ × ℕ) : Bool :=
  (decide (p.2 % C ≠ 0) && decide ((p.2 : ℤ) - (p.1 : ℤ) = 1)) ||
    decide ((p.2 : ℤ) - (p.1 : ℤ) = (C : ℤ))

/-- One step of the fill loop (lines 78-82): at position `p`, if the entry
is still zero and `p` is a lattice edge, draw the next coupling value and
write it at `p` and its mirror.  A `none` state records iterator exhaustion
(python's `next` raising `StopIteration`). -/
def genStep (C : ℕ) (st : Option ((ℕ × ℕ → ℚ) × List ℚ)) (p : ℕ × ℕ) :
    Option ((ℕ × ℕ → ℚ) × List ℚ) :=
  match st with
  | none => none
  | some (f, vs) =>
    if f p ≠ 0 then some (f, vs)
    else if isEdge C p then
      match vs with
      | [] => none
      | v :: rest =>
        some ((fun q => if q = p ∨ q = (p.2, p.1) then v else f q), rest)
    else some (f, vs)

/-- `build_coupling_mats` for a single matrix of the batch: fill an
`R·C × R·C` zero matrix by iterating over all index pairs in row-major
order, consuming the values of `vals` (that matrix's row of
`coup_term_mat`, the iterator of line 77) at each lattice-edge position,
mirrored symmetrically.  The matrices of a batch are filled independently,
so the per-matrix function captures every generated matrix. -/
def build_coupling_mat (R C : ℕ) (vals : List ℚ) : Option (ℕ × ℕ → ℚ) :=
  ((pairList (R * C)).foldl (genStep C) (some (fun _ => 0, vals))).map Prod.fst

/-- The lattice-edge positions in the iteration (= enumeration) order. -/
def edgeList (R C : ℕ) : List (ℕ × ℕ) := (pairList (R * C)).filter (isEdge C)

/-- Overlay an association list of edge values symmetrically on `g`
(earlier entries first, later entries overriding — matching the fill
loop's write order). -/
def applyEdges (g : ℕ × ℕ → ℚ) : List ((ℕ × ℕ) × ℚ) → (ℕ × ℕ → ℚ)
  | [] => g
  | (e, v) :: rest =>
    applyEdges (fun q => if q = e ∨ q = (e.2, e.1) then v else g q) rest

/-- Horizontal or vertical adjacency of linear indices `i`, `j` in a lattice
with `C` columns (`idx = row * C + col`): same row and adjacent columns, or
same column and adjacent rows. -/
def latticeAdj (C i j : ℕ) : Prop :=
  (i / C = j / C ∧ (i % C + 1 = j % C ∨ j % C + 1 = i % C)) ∨
  (i % C = j % C ∧ (i / C + 1 = j / C ∨ j / C + 1 = i / C))

instance (C i j : ℕ) : Decidable (latticeAdj C i j) := by
  unfold latticeAdj
  infer_instance

/-- Row-major flattening `coupling_mat.reshape(1, -1)[0]` (line 564) of an
`n × n` matrix given as a function. -/
def flattenMat (n : ℕ) (M : ℕ × ℕ → ℚ) : List ℚ := (pairList n).map M

/-- The dedup loop of lines 563-566: keep the first occurrence of each
nonzero value, in flattening order (`if coup and coup not in coupling_vec`). -/
def extractVec (l : List ℚ) : List ℚ :=
  l.foldl (fun acc c => if c ≠ 0 ∧ c ∉ acc then acc ++ [c] else acc) []

/-- `np.linalg.norm` of a real vector. -/
noncomputable def l2norm (r : List ℝ) : ℝ :=
  Real.sqrt ((r.map fun x => x ^ 2).sum)

/-- Line 567: `coupling_vec = np.array(coupling_vec) / np.linalg.norm(...)`. -/
noncomputable def normalizeVec (l : List ℚ) : List ℝ :=
  l.map fun v : ℚ => (v : ℝ) / l2norm (l.map fun w : ℚ => (w : ℝ))

/-! ### Definitions: group count for median-of-means (C3) -/

/-- `corr_function_op` (lines 160-165): three operators per qubit pair —
`XᵢXⱼ, YᵢYⱼ, ZᵢZⱼ` off the diagonal, three copies of the identity on it. -/
inductive CorrOp
  | pauli (p : PauliLabel) (i j : ℕ)
  | ident (i : ℕ)

def corr_function_op (i j : ℕ) : List CorrOp :=
  [PauliLabel.X, PauliLabel.Y, PauliLabel.Z].map fun p =>
    if i ≠ j then CorrOp.pauli p i j else CorrOp.ident i

/-- `qbobs` (lines 414-416 and 536-538): the flattened list of all
correlation operators over `itertools.product(range n, repeat=2)`. -/
def qbobs (n : ℕ) : List CorrOp :=
  ((pairList n).map fun p => corr_function_op p.1 p.2).flatten

/-- `k = int(2 * np.log(2 * M / failure_rate))` with `failure_rate = 1`
(lines 421-422 at module level, lines 540-541 inside `build_dataset`);
python's `int()` truncates, which is the floor for the positive values
taken here. -/
noncomputable def shadowK (M : ℕ) : ℤ := ⌊2 * Real.log (2 * (M : ℝ) / 1)⌋

/-- The group count actually passed to `estimate_shadow_observable` at the
module-level correlation-matrix estimation (line 430): `k + 1` with
`M = len(qbobs)` for the `Nr = Nc = 2` lattice (lines 93-94). -/
noncomputable def kUsedModule : ℤ := shadowK (qbobs (2 * 2)).length + 1

/-- The group count passed inside `build_dataset` (line 556): `k + 1` with
`M = len(qbobs)` for the function's own `num_qubits = Nr * Nc` (line 521). -/
noncomputable def kUsedDataset (Nr Nc : ℕ) : ℤ :=
  shadowK (qbobs (Nr * Nc)).length + 1

/-! ### Definitions: Hamiltonian and ground-state fallback (C6) -/

/-- `Hamiltonian` (lines 130-140): for every `i < j` and each of X, Y, Z,
emit the term `(J[i,j], op(i) @ op(j))` when the coupling is nonzero
(`if coeff:`). -/
def hamTerms (n : ℕ) (J : ℕ → ℕ → ℚ) : List (ℚ × PauliLabel × ℕ × ℕ) :=
  (List.range n).flatMap fun i =>
    (List.range' (i + 1) (n - (i + 1))).flatMap fun j =>
      [PauliLabel.X, PauliLabel.Y, PauliLabel.Z].flatMap fun op =>
        if J i j ≠ 0 then [(J i j, op, i, j)] else []

/-- `psi = np.zeros(2 ** num_qubits)` (line 529). -/
def psiFallback (n : ℕ) : List ℚ := List.replicate (2 ^ n) 0

/-- The ground-state selection of `build_dataset` (lines 527-532): the
external sparse eigensolver (abstracted as `solver`) is invoked only when
the Hamiltonian has at least one term (`if len(ham.ops):`); otherwise the
zero fallback vector is kept. -/
def groundStateSelect (solver : List (ℚ × PauliLabel × ℕ × ℕ) → List ℚ)
    (n : ℕ) (J : ℕ → ℕ → ℚ) : List ℚ :=
  if (hamTerms n J).length ≠ 0 then solver (hamTerms n J) else psiFallback n

/-! ### Definitions: neural-tangent-kernel normalization loop (C7) -/

/-- The in-place normalization loop of lines 648-650:
`kernel_NN[i][j] /= (kernel_NN[i][i] * kernel_NN[j][j]) ** 0.5`, iterating
over all `(i, j)` in row-major order; each division reads the diagonal
entries as they are *at that moment*, including earlier in-place updates.
(`** 0.5` is the square root on the nonnegative reals produced here.) -/
noncomputable def ntkNormalize (n : ℕ) (A : ℕ × ℕ → ℝ) : ℕ × ℕ → ℝ :=
  (pairList n).foldl
    (fun f p => fun q =>
      if q = p then f p / Real.sqrt (f (p.1, p.1) * f (p.2, p.2)) else f q) A

/-- The pre-normalization NTK matrix of the C7 failing input: diagonal 4,
off-diagonal 2 (any 2×2 matrix of that shape exhibits the divergence). -/
noncomputable def ntkExample : ℕ × ℕ → ℝ := fun p => if p.1 = p.2 then 4 else 2

/-! ### Definitions: regression pipeline (`fit_predict_data`, lines 664-724) -/

/-- External regression/model-selection collaborator: the two sklearn
model families (`svm.SVR(kernel=opt, C=Cx, epsilon=0.1)` and
`KernelRidge(kernel=opt, alpha=1/(2 Cx))`), `fit`/`predict`, the mean
5-fold `cross_val_score` with negative-RMSE scoring, and the
`train_test_split` index shuffle for `test_size=0.3` as a deterministic
function of (row count, `random_state`). -/
structure RegrOracle where
  Mdl : Type
  svr : ℝ → Mdl
  krr : ℝ → Mdl
  fit : Mdl → List (List ℝ) → List ℝ → Mdl
  predict : Mdl → List (List ℝ) → List ℝ
  cvMean : Mdl → List (List ℝ) → List ℝ → ℝ
  splitPerm : ℕ → ℕ → List ℕ × List ℕ

/-- The ten regularization values of lines 686-697. -/
noncomputable def hyperparams : List ℝ :=
  [0.0025, 0.0125, 0.025, 0.05, 0.125, 0.25, 0.5, 1.0, 5.0, 10.0]

/-- The candidate models in the search order of the nested loops at lines
699-700: the SVR family over all ten values, then the kernel-ridge family. -/
noncomputable def candidates (O : RegrOracle) : List O.Mdl :=
  [O.svr, O.krr].flatMap fun fam => hyperparams.map fam

/-- Lines 666-667: per-row L2 normalization (performed, in the source, *in
place* on the caller's array). -/
noncomputable def normalizeRows (K : List (List ℝ)) : List (List ℝ) :=
  K.map fun r => r.map fun x => x / l2norm r

/-- Select rows by an index list (how a precomputed shuffle is applied). -/
def selectIdx {α : Type} (idxs : List ℕ) (rows : List α) (dflt : α) :
    List α :=
  idxs.map fun i => rows.getD i dflt

/-- `np.linalg.norm(a - b)` for equal-length vectors. -/
noncomputable def l2dist (a b : List ℝ) : ℝ :=
  Real.sqrt (((a.zip b).map fun pq => (pq.1 - pq.2) ^ 2).sum)

open Classical in
/-- numpy's scalar `round` (round-half-to-even). -/
noncomputable def npRound (x : ℝ) : ℤ :=
  if Int.fract x < 1 / 2 then ⌊x⌋
  else if 1 / 2 < Int.fract x then ⌊x⌋ + 1
  else if Even ⌊x⌋ then ⌊x⌋ else ⌊x⌋ + 1

/-- `np.round(x, 5)` (line 722-723). -/
noncomputable def npRound5 (x : ℝ) : ℝ := (npRound (x * 100000) : ℝ) / 100000

/-- The per-candidate record the search loop keeps when a candidate becomes
the running best (lines 711-716): the model refitted on the training split,
its test-split predictions, its cv score, and the held-out test score
`np.linalg.norm(pred - y_test_clean) / len(y_test) ** 0.5`. -/
noncomputable def searchEntry (O : RegrOracle) (Xtr : List (List ℝ))
    (ytr : List ℝ) (Xte : List (List ℝ)) (yTestClean : List ℝ) (nTest : ℕ)
    (m : O.Mdl) : O.Mdl × List ℝ × ℝ × ℝ :=
  (O.fit m Xtr ytr, O.predict (O.fit m Xtr ytr) Xte,
    -(O.cvMean m Xtr ytr),
    l2dist (O.predict (O.fit m Xtr ytr) Xte) yTestClean /
      Real.sqrt (nTest : ℝ))

open Classical in
/-- One step of the hyperparameter search (lines 698-716): the running best
is `(fitted model, test predictions, cv score, test score)`; `none` stands
for the initial `best_cv_score = np.inf` state, which any real cv score
beats.  A strictly smaller cv score (`best_cv_score > cv_score`) refits the
model on the training split and recomputes the held-out test score against
the exact test labels. -/
noncomputable def searchStep (O : RegrOracle) (Xtr : List (List ℝ))
    (ytr : List ℝ) (Xte : List (List ℝ)) (yTestClean : List ℝ) (nTest : ℕ)
    (best : Option (O.Mdl × List ℝ × ℝ × ℝ)) (m : O.Mdl) :
    Option (O.Mdl × List ℝ × ℝ × ℝ) :=
  match best with
  | none => some (searchEntry O Xtr ytr Xte yTestClean nTest m)
  | some b =>
    if -(O.cvMean m Xtr ytr) < b.2.2.1 then
      some (searchEntry O Xtr ytr Xte yTestClean nTest m)
    else some b

/-- The result of `fit_predict_data`, together with the contents the
caller's kernel array holds after the call (the loop of lines 666-667
divides the rows of the caller's array in place). -/
structure FitResult (Mdl : Type) where
  model : Option Mdl
  pred : List ℝ
  yTestClean : List ℝ
  cvScore : ℝ
  testScore : ℝ
  kernelAfter : List (List ℝ)

/-- The label column `[ys[i][cij] for i in range(len(X_data))]`
(lines 670 and 676). -/
def yCol (ys : List (List ℝ)) (cij nX : ℕ) : List ℝ :=
  (List.range nX).map fun i => (ys.getD i []).getD cij 0

/-- The index shuffle of the first `train_test_split` call (lines 671-673):
`train_test_split(kernel, y, test_size=0.3, random_state=24)` on the
(row-normalized, see C8) kernel. -/
noncomputable def fpdSplit (O : RegrOracle) (kernel : List (List ℝ)) :
    List ℕ × List ℕ :=
  O.splitPerm (normalizeRows kernel).length 24

/-- The index shuffle of the second `train_test_split` call (line 677), on
the same rows with the same `random_state=24`; `train_test_split` is a
deterministic function of (row count, seed), so this is definitionally the
same shuffle as `fpdSplit`. -/
noncomputable def fpdSplitExact (O : RegrOracle) (kernel : List (List ℝ)) :
    List ℕ × List ℕ :=
  O.splitPerm (normalizeRows kernel).length 24

noncomputable def fpdXtr (O : RegrOracle) (kernel : List (List ℝ)) :
    List (List ℝ) :=
  selectIdx (fpdSplit O kernel).1 (normalizeRows kernel) []

noncomputable def fpdXte (O : RegrOracle) (kernel : List (List ℝ)) :
    List (List ℝ) :=
  selectIdx (fpdSplit O kernel).2 (normalizeRows kernel) []

noncomputable def fpdYtr (O : RegrOracle) (kernel : List (List ℝ))
    (y_estim : List (List ℝ)) (cij nX : ℕ) : List ℝ :=
  selectIdx (fpdSplit O kernel).1 (yCol y_estim cij nX) 0

noncomputable def fpdYte (O : RegrOracle) (kernel : List (List ℝ))
    (y_estim : List (List ℝ)) (cij nX : ℕ) : List ℝ :=
  selectIdx (fpdSplit O kernel).2 (yCol y_estim cij nX) 0

/-- `y_test_clean` (line 677): the exact-label column selected by the
second split's test indices. -/
noncomputable def fpdYclean (O : RegrOracle) (kernel : List (List ℝ))
    (y_exact : List (List ℝ)) (cij nX : ℕ) : List ℝ :=
  selectIdx (fpdSplitExact O kernel).2 (yCol y_exact cij nX) 0

/-- `fit_predict_data` (lines 664-724).  `nX` is `len(X_data)` (the global
dataset size used at lines 670/676); `y_estim`/`y_exact` are the global
label matrices.  The `none` fallback of the final match is unreachable: the
candidate list always has 20 entries and the first one always replaces the
initial `np.inf` score. -/
noncomputable def fit_predict_data (O : RegrOracle) (cij : ℕ)
    (kernel : List (List ℝ)) (y_estim y_exact : List (List ℝ)) (nX : ℕ) :
    FitResult O.Mdl :=
  match (candidates O).foldl
      (searchStep O (fpdXtr O kernel) (fpdYtr O kernel y_estim cij nX)
        (fpdXte O kernel) (fpdYclean O kernel y_exact cij nX)
        (fpdYte O kernel y_estim cij nX).length) none with
  | some (m, pred, cv, ts) =>
    ⟨some m, pred, fpdYclean O kernel y_exact cij nX, npRound5 cv,
      npRound5 ts, normalizeRows kernel⟩
  | none =>
    ⟨none, [], fpdYclean O kernel y_exact cij nX, 0, 0, normalizeRows kernel⟩

/-- Root-mean-square error between two equal-length vectors, as the claim
states it. -/
noncomputable def rmse (a b : List ℝ) : ℝ :=
  Real.sqrt ((((a.zip b).map fun pq => (pq.1 - pq.2) ^ 2).sum) /
    (a.length : ℝ))

/-- A trivial concrete instantiation of the collaborator interface, used by
the concrete witnesses below. -/
noncomputable def oracle0 : RegrOracle where
  Mdl := Unit
  svr := fun _ => ()
  krr := fun _ => ()
  fit := fun m _ _ => m
  predict := fun _ X => X.map fun _ => 0
  cvMean := fun _ _ _ => 0
  splitPerm := fun _ _ => ([0], [1])

/-! ### Lemmas and claim theorems -/

lemma foldl_append_singleton {α β : Type} (g : α → β) (l : List α)
    (acc : List β) :
    l.foldl (fun a i => a ++ [g i]) acc = acc ++ l.map g := by
  induction l generalizing acc with
  | nil => simp
  | cons x xs ih => simp [ih]

lemma groupMeans_eq_map (sh : Shadow) (o : TargetObs) (s : ℕ) :
    groupMeans sh o s =
      (pyRange sh.meas.length s).map (groupEntry sh o s) := by
  unfold groupMeans
  have hstep :
      (fun (means : List ℚ) i =>
        if (matchedRows sh o i s).length ≠ 0 then
          means ++
            [((matchedRows sh o i s).map fun r => prodAt r.1 (obsLocs o)).sum /
              ((matchedRows sh o i s).length : ℚ)]
        else means ++ [0]) =
      fun (means : List ℚ) i => means ++ [groupEntry sh o s i] := by
    funext means i
    unfold groupEntry
    split <;> rfl
  rw [hstep, foldl_append_singleton]
  simp

lemma getD_map_of_lt {α β : Type} (f : α → β) (l : List α) {g : ℕ}
    (hg : g < l.length) (d : β) (e : α) :
    (l.map f).getD g d = f (l.getD g e) := by
  simp [List.getD_eq_getElem?_getD, List.getElem?_eq_getElem, hg]

/-- Claim C10: `estimate_shadow_observable` is total exactly on group counts
between 1 and the shadow size: for `1 ≤ k ≤ T` it returns an estimate, and
for `k > T` the integer stride `T / k` is zero and the call fails (a
zero-step `range`). -/
theorem claim_C10 (sh : Shadow) (o : TargetObs) (k : ℕ)
    (_hT : 1 ≤ sh.meas.length) :
    (1 ≤ k → k ≤ sh.meas.length →
      (estimate_shadow_observable sh o k).isSome = true) ∧
    (sh.meas.length < k →
      sh.meas.length / k = 0 ∧ estimate_shadow_observable sh o k = none) := by
  constructor
  · intro hk1 hk2
    have hs : sh.meas.length / k ≠ 0 := by
      have h := (Nat.one_le_div_iff (show 0 < k by omega)).2 hk2
      omega
    unfold estimate_shadow_observable
    rw [if_neg hs]
    rfl
  · intro hk
    have hs : sh.meas.length / k = 0 := Nat.div_eq_of_lt hk
    refine ⟨hs, ?_⟩
    unfold estimate_shadow_observable
    rw [if_pos hs]

/-- Claim C10 witness: a concrete shadow of 3 snapshots, for which group
count 2 yields an estimate and group count 5 fails. -/
theorem claim_C10_witness :
    1 ≤ (Shadow.mk [[1], [-1], [1]] [[2], [2], [2]]).meas.length ∧
    (estimate_shadow_observable (Shadow.mk [[1], [-1], [1]] [[2], [2], [2]])
        [(0, PauliLabel.Z)] 2).isSome = true ∧
    estimate_shadow_observable (Shadow.mk [[1], [-1], [1]] [[2], [2], [2]])
        [(0, PauliLabel.Z)] 5 = none := by
  refine ⟨by decide, ?_, ?_⟩
  · exact (claim_C10 (Shadow.mk [[1], [-1], [1]] [[2], [2], [2]])
      [(0, PauliLabel.Z)] 2 (by decide)).1 (by decide) (by decide)
  · exact ((claim_C10 (Shadow.mk [[1], [-1], [1]] [[2], [2], [2]])
      [(0, PauliLabel.Z)] 5 (by decide)).2 (by decide)).2

/-- Claim C2: with stride `s = T / k`, every group with zero matching
snapshots contributes exactly 0 to the means list, every group with at
least one matching snapshot contributes the mean of the products of the
targeted outcomes over its matching snapshots, no group is excluded (the
means list has one entry per group), and the call returns the median of
that list rather than failing. -/
theorem claim_C2 (sh : Shadow) (o : TargetObs) (k : ℕ)
    (hk1 : 1 ≤ k) (hk2 : k ≤ sh.meas.length) :
    estimate_shadow_observable sh o k =
      some (npMedian (groupMeans sh o (sh.meas.length / k))) ∧
    (groupMeans sh o (sh.meas.length / k)).length =
      (pyRange sh.meas.length (sh.meas.length / k)).length ∧
    ∀ g, g < (pyRange sh.meas.length (sh.meas.length / k)).length →
      (groupMeans sh o (sh.meas.length / k)).getD g 0 =
        if (matchedRows sh o
              ((pyRange sh.meas.length (sh.meas.length / k)).getD g 0)
              (sh.meas.length / k)).length = 0 then 0
        else
          ((matchedRows sh o
              ((pyRange sh.meas.length (sh.meas.length / k)).getD g 0)
              (sh.meas.length / k)).map fun r => prodAt r.1 (obsLocs o)).sum /
            ((matchedRows sh o
              ((pyRange sh.meas.length (sh.meas.length / k)).getD g 0)
              (sh.meas.length / k)).length : ℚ) := by
  have hs : sh.meas.length / k ≠ 0 := by
    have h := (Nat.one_le_div_iff (show 0 < k by omega)).2 hk2
    omega
  refine ⟨?_, ?_, ?_⟩
  · unfold estimate_shadow_observable
    rw [if_neg hs]
  · rw [groupMeans_eq_map, List.length_map]
  · intro g hg
    rw [groupMeans_eq_map, getD_map_of_lt (groupEntry sh o (sh.meas.length / k))
      (pyRange sh.meas.length (sh.meas.length / k)) hg 0 0]
    unfold groupEntry
    split <;> simp_all

/-- Claim C2 witness: a shadow of two snapshots with group count 2; the
second group has no snapshot matching Z on qubit 0 and contributes exactly
0, while the first contributes the mean 1. -/
theorem claim_C2_witness :
    (groupMeans (Shadow.mk [[1], [1]] [[2], [0]]) [(0, PauliLabel.Z)]
        ((Shadow.mk [[1], [1]] [[2], [0]]).meas.length / 2)).getD 1 0 = 0 ∧
    (groupMeans (Shadow.mk [[1], [1]] [[2], [0]]) [(0, PauliLabel.Z)]
        ((Shadow.mk [[1], [1]] [[2], [0]]).meas.length / 2)).getD 0 0 = 1 := by
  have h := claim_C2 (Shadow.mk [[1], [1]] [[2], [0]]) [(0, PauliLabel.Z)] 2
    (by decide) (by decide)
  refine ⟨(h.2.2 1 (by decide)).trans ?_, (h.2.2 0 (by decide)).trans ?_⟩ <;>
    norm_num [matchedRows, pyRange, pyRangeLen, pySlice, rowMatches, obsLocs,
      obsIdxs, prodAt, List.range', pauliIdx]

/-- Claim C1 counterexample: for the 3-snapshot shadow with outcomes
1, -1, -1 (all bases Z) and group count K = 2, the claim prescribes two
groups of one snapshot each (dropping the third) with median 0, but the
code builds three groups (the remainder snapshot becomes an extra group)
and returns -1. -/
theorem claim_C1_counterexample :
    (claimedGroupMeans (Shadow.mk [[1], [-1], [-1]] [[2], [2], [2]])
        [(0, PauliLabel.Z)] 2).length = 2 ∧
    claimedEstimate (Shadow.mk [[1], [-1], [-1]] [[2], [2], [2]])
        [(0, PauliLabel.Z)] 2 = 0 ∧
    (groupMeans (Shadow.mk [[1], [-1], [-1]] [[2], [2], [2]])
        [(0, PauliLabel.Z)]
        ((Shadow.mk [[1], [-1], [-1]] [[2], [2], [2]]).meas.length / 2)).length
      = 3 ∧
    estimate_shadow_observable (Shadow.mk [[1], [-1], [-1]] [[2], [2], [2]])
        [(0, PauliLabel.Z)] 2 = some (-1) := by
  norm_num [estimate_shadow_observable, claimedGroupMeans, claimedEstimate,
    groupEntry, groupMeans, matchedRows, pyRange, pyRangeLen, pySlice,
    rowMatches, obsLocs, obsIdxs, prodAt, npMedian, sortQ, insertSorted,
    List.range', List.range_succ, List.range_zero, pauliIdx]

lemma pyRangeLen_mul_ge (stop step : ℕ) (hstep : 0 < step) :
    stop ≤ pyRangeLen stop step * step := by
  by_contra h
  push_neg at h
  have h2 : (pyRangeLen stop step + 1) * step ≤ stop + step - 1 := by
    rw [Nat.succ_mul]
    omega
  have h3 : pyRangeLen stop step + 1 ≤ (stop + step - 1) / step :=
    (Nat.le_div_iff_mul_le hstep).2 h2
  unfold pyRangeLen at h3
  omega

lemma flatten_slices {α : Type} :
    ∀ (n : ℕ) (l : List α) (s : ℕ), 0 < s → l.length ≤ n * s →
      ((List.range' 0 n s).map fun i => (l.drop i).take s).flatten = l := by
  intro n
  induction n with
  | zero =>
    intro l s _ hl
    simp only [Nat.zero_mul, Nat.le_zero] at hl
    have h : l = [] := List.eq_nil_of_length_eq_zero hl
    simp [h]
  | succ m ih =>
    intro l s hs hl
    rw [List.range'_succ]
    simp only [List.map_cons, List.flatten_cons, List.drop_zero]
    have h1 : List.range' (0 + s) m s = (List.range' 0 m s).map (s + ·) := by
      rw [Nat.zero_add]
      have h := List.map_add_range' s 0 m s
      rw [Nat.add_zero] at h
      exact h.symm
    rw [h1, List.map_map]
    have h2 :
        ((List.range' 0 m s).map ((fun i => (l.drop i).take s) ∘ (s + ·))) =
        (List.range' 0 m s).map fun i => ((l.drop s).drop i).take s := by
      apply List.map_congr_left
      intro i _
      simp only [Function.comp_apply, List.drop_drop]
    rw [h2, ih (l.drop s) s hs (by rw [List.length_drop, Nat.succ_mul] at *; omega)]
    exact List.take_append_drop s l

/-- Claim C1 (amended): with stride `s = ⌊T/K⌋ ≥ 1`, the code partitions the
snapshots into `⌈T/s⌉` contiguous groups of stride `s` — the trailing
remainder snapshots are kept as an extra, shorter final group rather than
dropped (the groups concatenate back to the whole snapshot list) — and
returns the median over all `⌈T/s⌉` per-group estimates; only when `K`
divides `T` is this exactly `K` groups of `s` snapshots each. -/
theorem claim_C1_amended (sh : Shadow) (o : TargetObs) (k : ℕ)
    (hk1 : 1 ≤ k) (hk2 : k ≤ sh.meas.length) :
    estimate_shadow_observable sh o k =
      some (npMedian (groupMeans sh o (sh.meas.length / k))) ∧
    (groupMeans sh o (sh.meas.length / k)).length =
      pyRangeLen sh.meas.length (sh.meas.length / k) ∧
    ((pyRange sh.meas.length (sh.meas.length / k)).map fun i =>
        pySlice sh.meas i (sh.meas.length / k)).flatten = sh.meas ∧
    (k ∣ sh.meas.length →
      (groupMeans sh o (sh.meas.length / k)).length = k ∧
      ∀ i ∈ pyRange sh.meas.length (sh.meas.length / k),
        (pySlice sh.meas i (sh.meas.length / k)).length =
          sh.meas.length / k) := by
  have hk0 : 0 < k := by omega
  have hs : 0 < sh.meas.length / k := (Nat.one_le_div_iff hk0).2 hk2
  have hlen : (groupMeans sh o (sh.meas.length / k)).length =
      pyRangeLen sh.meas.length (sh.meas.length / k) := by
    rw [groupMeans_eq_map, List.length_map]
    unfold pyRange
    exact List.length_range' _ _ _
  refine ⟨?_, hlen, ?_, ?_⟩
  · unfold estimate_shadow_observable
    rw [if_neg (by omega)]
  · unfold pyRange pySlice
    exact flatten_slices _ sh.meas _ hs
      (pyRangeLen_mul_ge sh.meas.length _ hs)
  · intro hdvd
    have hT : sh.meas.length = k * (sh.meas.length / k) :=
      (Nat.mul_div_cancel' hdvd).symm
    set s := sh.meas.length / k
    have hn : pyRangeLen sh.meas.length s = k := by
      unfold pyRangeLen
      rw [hT, Nat.mul_comm k s]
      have h : (s * k + s - 1) = s * k + (s - 1) := by omega
      rw [h, Nat.mul_add_div hs, Nat.div_eq_of_lt (by omega)]
      omega
    refine ⟨by rw [hlen, hn], ?_⟩
    intro i hi
    unfold pyRange at hi
    rw [List.mem_range'] at hi
    obtain ⟨g, hg, rfl⟩ := hi
    rw [hn] at hg
    have hgs : s * g + s ≤ sh.meas.length := by
      rw [hT, Nat.mul_comm k s]
      have h : s * g + s = s * (g + 1) := by ring
      rw [h]
      exact Nat.mul_le_mul_left s (by omega)
    unfold pySlice
    rw [List.length_take, List.length_drop]
    omega

/-- Claim C1 witness: the amended statement instantiated at the concrete
3-snapshot shadow with group count 2. -/
theorem claim_C1_witness :
    estimate_shadow_observable (Shadow.mk [[1], [-1], [-1]] [[2], [2], [2]])
        [(0, PauliLabel.Z)] 2 =
      some (npMedian (groupMeans (Shadow.mk [[1], [-1], [-1]] [[2], [2], [2]])
        [(0, PauliLabel.Z)]
        ((Shadow.mk [[1], [-1], [-1]] [[2], [2], [2]]).meas.length / 2))) ∧
    ((pyRange (Shadow.mk [[1], [-1], [-1]] [[2], [2], [2]]).meas.length
        ((Shadow.mk [[1], [-1], [-1]] [[2], [2], [2]]).meas.length / 2)).map
          fun i => pySlice (Shadow.mk [[1], [-1], [-1]] [[2], [2], [2]]).meas i
            ((Shadow.mk [[1], [-1], [-1]] [[2], [2], [2]]).meas.length / 2)).flatten
      = (Shadow.mk [[1], [-1], [-1]] [[2], [2], [2]]).meas := by
  have h := claim_C1_amended (Shadow.mk [[1], [-1], [-1]] [[2], [2], [2]])
    [(0, PauliLabel.Z)] 2 (by decide) (by decide)
  exact ⟨h.1, h.2.2.1⟩

/-! ### Coupling-matrix lemmas (C5, C9) -/

lemma isEdge_lt {C : ℕ} (hC : 0 < C) {p : ℕ × ℕ} (h : isEdge C p = true) :
    p.1 < p.2 := by
  unfold isEdge at h
  simp only [Bool.or_eq_true, Bool.and_eq_true, decide_eq_true_eq] at h
  omega

lemma isEdge_iff {C : ℕ} (p : ℕ × ℕ) :
    isEdge C p = true ↔ ((p.2 % C ≠ 0 ∧ p.2 = p.1 + 1) ∨ p.2 = p.1 + C) := by
  unfold isEdge
  simp only [Bool.or_eq_true, Bool.and_eq_true, decide_eq_true_eq]
  omega

lemma genStep_fold (C : ℕ) (hC : 0 < C) :
    ∀ (l : List (ℕ × ℕ)) (g : ℕ × ℕ → ℚ) (vs : List ℚ),
      l.Nodup →
      (∀ p ∈ l, isEdge C p = true → g p = 0) →
      (l.filter (isEdge C)).length ≤ vs.length →
      l.foldl (genStep C) (some (g, vs)) =
        some (applyEdges g ((l.filter (isEdge C)).zip vs),
              vs.drop (l.filter (isEdge C)).length) := by
  intro l
  induction l with
  | nil =>
    intro g vs _ _ _
    simp [applyEdges]
  | cons p t ih =>
    intro g vs hnd hg hlen
    rw [List.foldl_cons]
    by_cases hE : isEdge C p = true
    · have hgp : g p = 0 := hg p (List.mem_cons_self p t) hE
      have hfil : (p :: t).filter (isEdge C) = p :: t.filter (isEdge C) := by
        simp [List.filter_cons, hE]
      rw [hfil] at hlen ⊢
      obtain ⟨v, rest, rfl⟩ : ∃ v rest, vs = v :: rest := by
        cases vs with
        | nil => simp at hlen
        | cons v rest => exact ⟨v, rest, rfl⟩
      have hstep : genStep C (some (g, v :: rest)) p =
          some ((fun q => if q = p ∨ q = (p.2, p.1) then v else g q), rest) := by
        show (if g p ≠ 0 then some (g, v :: rest)
          else if isEdge C p then
            some ((fun q => if q = p ∨ q = (p.2, p.1) then v else g q), rest)
          else some (g, v :: rest)) =
          some ((fun q => if q = p ∨ q = (p.2, p.1) then v else g q), rest)
        rw [if_neg (by simp [hgp]), if_pos hE]
      rw [hstep]
      have hnd' := (List.nodup_cons.mp hnd).2
      have hpnot := (List.nodup_cons.mp hnd).1
      have hg' : ∀ q ∈ t, isEdge C q = true →
          (fun q => if q = p ∨ q = (p.2, p.1) then v else g q) q = 0 := by
        intro q hq hEq
        have h1 : q ≠ p := fun h => hpnot (h ▸ hq)
        have h2 : q ≠ (p.2, p.1) := by
          intro h
          have hq1 := isEdge_lt hC hEq
          have hq2 := isEdge_lt hC hE
          rw [h] at hq1
          simp at hq1
          omega
        simp only [h1, h2, or_self, if_false]
        exact hg q (List.mem_cons_of_mem p hq) hEq
      rw [ih _ rest hnd' hg' (by simpa using hlen)]
      rfl
    · have hstep : genStep C (some (g, vs)) p = some (g, vs) := by
        cases vs with
        | nil =>
          show (if g p ≠ 0 then some (g, ([] : List ℚ))
            else if isEdge C p then none else some (g, [])) = some (g, [])
          by_cases hgp : g p ≠ 0
          · rw [if_pos hgp]
          · rw [if_neg hgp, if_neg hE]
        | cons v rest =>
          show (if g p ≠ 0 then some (g, v :: rest)
            else if isEdge C p then
              some ((fun q => if q = p ∨ q = (p.2, p.1) then v else g q), rest)
            else some (g, v :: rest)) = some (g, v :: rest)
          by_cases hgp : g p ≠ 0
          · rw [if_pos hgp]
          · rw [if_neg hgp, if_neg hE]
      rw [hstep]
      have hfil : (p :: t).filter (isEdge C) = t.filter (isEdge C) := by
        simp [List.filter_cons, hE]
      rw [hfil] at hlen ⊢
      exact ih g vs (List.nodup_cons.mp hnd).2
        (fun q hq h => hg q (List.mem_cons_of_mem p hq) h) hlen

lemma pairList_eq_map (n : ℕ) :
    pairList n = (List.range (n * n)).map fun t => (t / n, t % n) := by
  suffices h : ∀ m,
      ((List.range m).flatMap fun i => (List.range n).map fun j => (i, j)) =
        (List.range (m * n)).map fun t => (t / n, t % n) by
    exact h n
  intro m
  induction m with
  | zero => simp
  | succ m ih =>
    rw [List.range_succ, List.flatMap_append, ih, Nat.succ_mul,
      List.range_add, List.map_append]
    congr 1
    simp only [List.flatMap_cons, List.flatMap_nil, List.append_nil,
      List.map_map]
    apply List.map_congr_left
    intro j hj
    rw [List.mem_range] at hj
    have hn : 0 < n := by omega
    have h1 : (m * n + j) / n = m := by
      rw [Nat.mul_comm m n, Nat.mul_add_div hn, Nat.div_eq_of_lt hj]
      omega
    have h2 : (m * n + j) % n = j := by
      rw [Nat.mul_comm m n, Nat.mul_add_mod, Nat.mod_eq_of_lt hj]
    simp only [Function.comp_apply, h1, h2]

lemma pairList_nodup (n : ℕ) : (pairList n).Nodup := by
  rw [pairList_eq_map]
  apply List.Nodup.map_on
  · intro x hx y hy hxy
    have h1 : x / n = y / n := congrArg Prod.fst hxy
    have h2 : x % n = y % n := congrArg Prod.snd hxy
    calc x = n * (x / n) + x % n := (Nat.div_add_mod x n).symm
    _ = n * (y / n) + y % n := by rw [h1, h2]
    _ = y := Nat.div_add_mod y n
  · exact List.nodup_range (n * n)

lemma mem_pairList {n : ℕ} {p : ℕ × ℕ} :
    p ∈ pairList n ↔ p.1 < n ∧ p.2 < n := by
  unfold pairList
  simp only [List.mem_flatMap, List.mem_map, List.mem_range]
  constructor
  · rintro ⟨i, hi, j, hj, rfl⟩
    exact ⟨hi, hj⟩
  · intro h
    exact ⟨p.1, h.1, p.2, h.2, rfl⟩

lemma build_coupling_mat_eq (R C : ℕ) (hC : 0 < C) (vals : List ℚ)
    (hlen : (edgeList R C).length ≤ vals.length) :
    build_coupling_mat R C vals =
      some (applyEdges (fun _ => 0) ((edgeList R C).zip vals)) := by
  unfold build_coupling_mat
  unfold edgeList at hlen
  rw [genStep_fold C hC _ _ _ (pairList_nodup _) (by intro p _ _; rfl) hlen]
  rfl

lemma applyEdges_miss :
    ∀ (al : List ((ℕ × ℕ) × ℚ)) (g : ℕ × ℕ → ℚ) (q : ℕ × ℕ),
      (∀ e ∈ al, e.1 ≠ q ∧ (e.1.2, e.1.1) ≠ q) → applyEdges g al q = g q := by
  intro al
  induction al with
  | nil => intro g q _; rfl
  | cons e rest ih =>
    intro g q h
    obtain ⟨k, v⟩ := e
    simp only [applyEdges]
    rw [ih _ q fun e he => h e (List.mem_cons_of_mem _ he)]
    have hk := h (k, v) (List.mem_cons_self _ _)
    have h1 : ¬(q = k ∨ q = (k.2, k.1)) := by
      push_neg
      exact ⟨Ne.symm hk.1, Ne.symm hk.2⟩
    rw [if_neg h1]

lemma applyEdges_hit :
    ∀ (al : List ((ℕ × ℕ) × ℚ)) (g : ℕ × ℕ → ℚ) (k : ℕ × ℕ) (v : ℚ)
      (q : ℕ × ℕ),
      (k, v) ∈ al →
      (∀ e ∈ al, e.1.1 < e.1.2) →
      (al.map Prod.fst).Nodup →
      (q = k ∨ q = (k.2, k.1)) →
      applyEdges g al q = v := by
  intro al
  induction al with
  | nil => intro g k v q h; simp at h
  | cons e rest ih =>
    intro g k v q hmem hlt hnd hq
    obtain ⟨e1, w⟩ := e
    simp only [List.map_cons] at hnd
    have hnd1 := (List.nodup_cons.mp hnd).1
    have hnd2 := (List.nodup_cons.mp hnd).2
    simp only [applyEdges]
    rcases List.mem_cons.mp hmem with heq | hmem'
    · have h1 : k = e1 := congrArg Prod.fst heq
      have h2 : v = w := congrArg Prod.snd heq
      subst h1
      subst h2
      have hk1 : k.1 < k.2 := hlt (k, v) (List.mem_cons_self _ _)
      rw [applyEdges_miss]
      · rw [if_pos hq]
      · intro e' he'
        have he'lt : e'.1.1 < e'.1.2 := hlt e' (List.mem_cons_of_mem _ he')
        have he'mem : e'.1 ∈ rest.map Prod.fst :=
          List.mem_map_of_mem Prod.fst he'
        have he'ne : e'.1 ≠ k := fun hc => hnd1 (hc ▸ he'mem)
        constructor
        · intro hcontra
          rcases hq with rfl | rfl
          · exact he'ne hcontra
          · have ha := congrArg Prod.fst hcontra
            have hb := congrArg Prod.snd hcontra
            simp only at ha hb
            omega
        · intro hcontra
          rcases hq with rfl | rfl
          · have ha := congrArg Prod.fst hcontra
            have hb := congrArg Prod.snd hcontra
            simp only at ha hb
            omega
          · have ha := congrArg Prod.fst hcontra
            have hb := congrArg Prod.snd hcontra
            simp only at ha hb
            apply he'ne
            have hx : e'.1 = (e'.1.1, e'.1.2) := rfl
            have hy : k = (k.1, k.2) := rfl
            rw [hx, hy, hb, ha]
    · exact ih _ k v q hmem'
        (fun e he => hlt e (List.mem_cons_of_mem _ he)) hnd2 hq

lemma applyEdges_symm :
    ∀ (al : List ((ℕ × ℕ) × ℚ)) (g : ℕ × ℕ → ℚ),
      (∀ i j, g (i, j) = g (j, i)) →
      ∀ i j, applyEdges g al (i, j) = applyEdges g al (j, i) := by
  intro al
  induction al with
  | nil => intro g hg i j; exact hg i j
  | cons e rest ih =>
    intro g hg i j
    obtain ⟨⟨a, b⟩, v⟩ := e
    simp only [applyEdges]
    apply ih
    intro x y
    have hiff : ((x, y) = (a, b) ∨ (x, y) = (b, a)) ↔
        ((y, x) = (a, b) ∨ (y, x) = (b, a)) := by
      simp only [Prod.mk.injEq]
      tauto
    by_cases h : (x, y) = (a, b) ∨ (x, y) = (b, a)
    · rw [if_pos h, if_pos (hiff.mp h)]
    · rw [if_neg h, if_neg fun hc => h (hiff.mpr hc)]
      exact hg x y

lemma applyEdges_diag (al : List ((ℕ × ℕ) × ℚ)) (g : ℕ × ℕ → ℚ)
    (hlt : ∀ e ∈ al, e.1.1 < e.1.2) (i : ℕ) :
    applyEdges g al (i, i) = g (i, i) := by
  apply applyEdges_miss
  intro e he
  have h := hlt e he
  constructor
  · intro hc
    have h1 := congrArg Prod.fst hc
    have h2 := congrArg Prod.snd hc
    simp only at h1 h2
    omega
  · intro hc
    have h1 := congrArg Prod.fst hc
    have h2 := congrArg Prod.snd hc
    simp only at h1 h2
    omega

lemma div_mod_succ {C : ℕ} (hC : 0 < C) (i j : ℕ) :
    (j = i + 1 ∧ j % C ≠ 0) ↔ (i / C = j / C ∧ i % C + 1 = j % C) := by
  constructor
  · rintro ⟨rfl, hne⟩
    have hlt : i % C < C := Nat.mod_lt i hC
    have hdm := Nat.div_add_mod i C
    by_cases h : i % C + 1 < C
    · have h1 : i + 1 = C * (i / C) + (i % C + 1) := by omega
      have hd : (i + 1) / C = i / C := by
        rw [h1, Nat.mul_add_div hC, Nat.div_eq_of_lt h]
        omega
      have hm : (i + 1) % C = i % C + 1 := by
        rw [h1, Nat.mul_add_mod, Nat.mod_eq_of_lt h]
      exact ⟨hd.symm, hm.symm⟩
    · exfalso
      have hms : C * (i / C + 1) = C * (i / C) + C := Nat.mul_succ C (i / C)
      have h1 : i + 1 = C * (i / C + 1) := by omega
      have h2 : (i + 1) % C = 0 := by
        rw [h1, Nat.mul_mod_right]
      exact hne h2
  · rintro ⟨hd, hm⟩
    have h1 := Nat.div_add_mod i C
    have h2 := Nat.div_add_mod j C
    rw [← hd] at h2
    constructor
    · omega
    · omega

lemma div_mod_vert {C : ℕ} (hC : 0 < C) (i j : ℕ) :
    (j = i + C) ↔ (i % C = j % C ∧ i / C + 1 = j / C) := by
  constructor
  · rintro rfl
    constructor
    · rw [Nat.add_mod_right]
    · rw [Nat.add_div_right i hC]
  · rintro ⟨hm, hd⟩
    have h1 := Nat.div_add_mod i C
    have h2 := Nat.div_add_mod j C
    have h3 : C * (j / C) = C * (i / C + 1) := by rw [hd]
    have h4 : C * (i / C + 1) = C * (i / C) + C := Nat.mul_succ C (i / C)
    omega

lemma latticeAdj_decomp {C : ℕ} (hC : 0 < C) (i j : ℕ) :
    latticeAdj C i j ↔
      ((j % C ≠ 0 ∧ j = i + 1) ∨ (i % C ≠ 0 ∧ i = j + 1) ∨
        j = i + C ∨ i = j + C) := by
  have ha := div_mod_succ hC i j
  have hb := div_mod_succ hC j i
  have hc := div_mod_vert hC i j
  have hd := div_mod_vert hC j i
  unfold latticeAdj
  constructor
  · rintro (⟨h1, h2 | h2⟩ | ⟨h1, h2 | h2⟩)
    · exact Or.inl ⟨(ha.mpr ⟨h1, h2⟩).2, (ha.mpr ⟨h1, h2⟩).1⟩
    · exact Or.inr (Or.inl ⟨(hb.mpr ⟨h1.symm, h2⟩).2, (hb.mpr ⟨h1.symm, h2⟩).1⟩)
    · exact Or.inr (Or.inr (Or.inl (hc.mpr ⟨h1, h2⟩)))
    · exact Or.inr (Or.inr (Or.inr (hd.mpr ⟨h1.symm, h2⟩)))
  · rintro (⟨h1, h2⟩ | ⟨h1, h2⟩ | h1 | h1)
    · exact Or.inl ⟨(ha.mp ⟨h2, h1⟩).1, Or.inl (ha.mp ⟨h2, h1⟩).2⟩
    · exact Or.inl ⟨((hb.mp ⟨h2, h1⟩).1).symm, Or.inr (hb.mp ⟨h2, h1⟩).2⟩
    · exact Or.inr ⟨(hc.mp h1).1, Or.inl (hc.mp h1).2⟩
    · exact Or.inr ⟨((hd.mp h1).1).symm, Or.inr (hd.mp h1).2⟩

lemma isEdge_iff_adj {C : ℕ} (hC : 0 < C) (i j : ℕ) :
    isEdge C (i, j) = true ↔ (latticeAdj C i j ∧ i < j) := by
  rw [isEdge_iff, latticeAdj_decomp hC]
  constructor
  · rintro (⟨h1, h2⟩ | h1)
    · exact ⟨Or.inl ⟨by simpa using h1, by simpa using h2⟩, by simp at h2; omega⟩
    · refine ⟨Or.inr (Or.inr (Or.inl (by simpa using h1))), ?_⟩
      simp at h1
      omega
  · rintro ⟨(⟨h1, h2⟩ | ⟨h1, h2⟩ | h1 | h1), hij⟩
    · exact Or.inl ⟨h1, h2⟩
    · omega
    · exact Or.inr h1
    · omega

lemma latticeAdj_symm {C : ℕ} (hC : 0 < C) (i j : ℕ) :
    latticeAdj C i j ↔ latticeAdj C j i := by
  rw [latticeAdj_decomp hC, latticeAdj_decomp hC]
  tauto

lemma pairList_toFinset (n : ℕ) :
    (pairList n).toFinset = Finset.range n ×ˢ Finset.range n := by
  ext p
  simp only [List.mem_toFinset, Finset.mem_product, Finset.mem_range]
  exact mem_pairList

lemma edgeList_length_eq_card (R C : ℕ) :
    (edgeList R C).length =
      ((Finset.range (R * C) ×ˢ Finset.range (R * C)).filter
        fun p => isEdge C p = true).card := by
  unfold edgeList
  rw [← List.toFinset_card_of_nodup ((pairList_nodup (R * C)).filter _),
    List.toFinset_filter, pairList_toFinset]

lemma mult_card (R C : ℕ) (hC : 0 < C) :
    ((Finset.range (R * C)).filter fun j => j % C = 0).card = R := by
  have himg : (Finset.range (R * C)).filter (fun j => j % C = 0) =
      (Finset.range R).image fun q => C * q := by
    ext m
    simp only [Finset.mem_filter, Finset.mem_range, Finset.mem_image]
    constructor
    · rintro ⟨hm, hmod⟩
      refine ⟨m / C, ?_, ?_⟩
      · have h1 := Nat.div_add_mod m C
        have h2 : C * (m / C) < C * R := by
          have h3 : C * (m / C) = m := by omega
          rw [h3, Nat.mul_comm C R]
          exact hm
        exact (Nat.mul_lt_mul_left hC).mp h2
      · have h1 := Nat.div_add_mod m C
        omega
    · rintro ⟨q, hq, rfl⟩
      constructor
      · rw [Nat.mul_comm R C]
        exact (Nat.mul_lt_mul_left hC).mpr hq
      · exact Nat.mul_mod_right C q
  rw [himg, Finset.card_image_of_injective _
    fun a b h => Nat.eq_of_mul_eq_mul_left hC h]
  exact Finset.card_range R

lemma nonmult_card (R C : ℕ) (hC : 0 < C) :
    ((Finset.range (R * C)).filter fun j => ¬ j % C = 0).card = R * C - R := by
  have h := @Finset.filter_card_add_filter_neg_card_eq_card _
    (Finset.range (R * C)) (fun j => j % C = 0) _ _
  rw [mult_card R C hC, Finset.card_range] at h
  omega

lemma horiz_card (R C : ℕ) (hC : 0 < C) :
    ((Finset.range (R * C) ×ˢ Finset.range (R * C)).filter
        fun p => p.2 % C ≠ 0 ∧ p.2 = p.1 + 1).card = R * C - R := by
  rw [← nonmult_card R C hC]
  apply Finset.card_nbij' (fun p => p.2) (fun j => (j - 1, j))
  · intro p hp
    simp only [Finset.mem_filter, Finset.mem_product, Finset.mem_range] at hp ⊢
    exact ⟨hp.1.2, hp.2.1⟩
  · intro j hj
    simp only [Finset.mem_filter, Finset.mem_range] at hj
    simp only [Finset.mem_filter, Finset.mem_product, Finset.mem_range]
    have hj0 : j ≠ 0 := by
      intro h
      rw [h, Nat.zero_mod] at hj
      exact hj.2 rfl
    refine ⟨⟨?_, hj.1⟩, hj.2, ?_⟩ <;> omega
  · intro p hp
    simp only [Finset.mem_filter, Finset.mem_product, Finset.mem_range] at hp
    have h : p = (p.1, p.2) := rfl
    rw [h]
    simp only [Prod.mk.injEq]
    exact ⟨by omega, trivial⟩
  · intro j _
    rfl

lemma vert_card (R C : ℕ) (hC : 0 < C) :
    ((Finset.range (R * C) ×ˢ Finset.range (R * C)).filter
        fun p => p.2 = p.1 + C).card = R * C - C := by
  rw [← Finset.card_range (R * C - C)]
  apply Finset.card_nbij' (fun p => p.1) (fun i => (i, i + C))
  · intro p hp
    simp only [Finset.mem_filter, Finset.mem_product, Finset.mem_range] at hp ⊢
    omega
  · intro i hi
    simp only [Finset.mem_range] at hi
    simp only [Finset.mem_filter, Finset.mem_product, Finset.mem_range]
    refine ⟨⟨?_, ?_⟩, trivial⟩ <;> omega
  · intro p hp
    simp only [Finset.mem_filter, Finset.mem_product, Finset.mem_range] at hp
    have h : p = (p.1, p.2) := rfl
    rw [h]
    simp only [Prod.mk.injEq]
    exact ⟨trivial, by omega⟩
  · intro i _
    rfl

lemma edge_card (R C : ℕ) (hR : 0 < R) (hC : 0 < C) :
    ((Finset.range (R * C) ×ˢ Finset.range (R * C)).filter
        fun p => isEdge C p = true).card = 2 * R * C - R - C := by
  have hsplit : (Finset.range (R * C) ×ˢ Finset.range (R * C)).filter
      (fun p => isEdge C p = true) =
      ((Finset.range (R * C) ×ˢ Finset.range (R * C)).filter
        fun p => p.2 % C ≠ 0 ∧ p.2 = p.1 + 1) ∪
      ((Finset.range (R * C) ×ˢ Finset.range (R * C)).filter
        fun p => p.2 = p.1 + C) := by
    rw [← Finset.filter_or]
    apply Finset.filter_congr
    intro p _
    rw [isEdge_iff]
  have hdisj : Disjoint
      ((Finset.range (R * C) ×ˢ Finset.range (R * C)).filter
        fun p => p.2 % C ≠ 0 ∧ p.2 = p.1 + 1)
      ((Finset.range (R * C) ×ˢ Finset.range (R * C)).filter
        fun p => p.2 = p.1 + C) := by
    rw [Finset.disjoint_left]
    intro p hpA hpB
    simp only [Finset.mem_filter] at hpA hpB
    have h1 := hpA.2.1
    have h2 := hpA.2.2
    have h3 := hpB.2
    have hC1 : C = 1 := by omega
    rw [hC1, Nat.mod_one] at h1
    exact h1 rfl
  rw [hsplit, Finset.card_union_of_disjoint hdisj, horiz_card R C hC,
    vert_card R C hC]
  have h2 : 2 * R * C = 2 * (R * C) := by ring
  have h3 : R ≤ R * C := by
    calc R = R * 1 := (Nat.mul_one R).symm
    _ ≤ R * C := Nat.mul_le_mul_left R hC
  have h4 : C ≤ R * C := by
    calc C = 1 * C := (Nat.one_mul C).symm
    _ ≤ R * C := Nat.mul_le_mul_right C hR
  omega

lemma edgeList_length (R C : ℕ) (hR : 0 < R) (hC : 0 < C) :
    (edgeList R C).length = 2 * R * C - R - C := by
  rw [edgeList_length_eq_card, edge_card R C hR hC]

lemma zip_entry_of_mem {l₁ : List (ℕ × ℕ)} {l₂ : List ℚ} {p : ℕ × ℕ}
    (hlen : l₁.length = l₂.length) (hp : p ∈ l₁) :
    ∃ v ∈ l₂, (p, v) ∈ l₁.zip l₂ := by
  obtain ⟨m, hm, heq⟩ := List.mem_iff_getElem.mp hp
  have hm2 : m < l₂.length := by omega
  refine ⟨l₂[m], List.getElem?_mem (List.getElem?_eq_getElem hm2), ?_⟩
  apply List.getElem?_mem
  apply List.getElem?_zip_eq_some.mpr
  refine ⟨?_, List.getElem?_eq_getElem hm2⟩
  rw [List.getElem?_eq_getElem hm, heq]

lemma build_coupling_mat_spec (R C : ℕ) (hR : 0 < R) (hC : 0 < C)
    (vals : List ℚ) (hlen : vals.length = 2 * R * C - R - C)
    (hnz : ∀ v ∈ vals, v ≠ 0) :
    build_coupling_mat R C vals =
      some (applyEdges (fun _ => 0) ((edgeList R C).zip vals)) ∧
    (∀ i j, applyEdges (fun _ => 0) ((edgeList R C).zip vals) (i, j) =
      applyEdges (fun _ => 0) ((edgeList R C).zip vals) (j, i)) ∧
    (∀ i, applyEdges (fun _ => 0) ((edgeList R C).zip vals) (i, i) = 0) ∧
    (∀ i j, i < R * C → j < R * C →
      (applyEdges (fun _ => 0) ((edgeList R C).zip vals) (i, j) ≠ 0 ↔
        latticeAdj C i j)) := by
  have hEL : (edgeList R C).length = vals.length := by
    rw [edgeList_length R C hR hC, hlen]
  have hle : (edgeList R C).length ≤ vals.length := le_of_eq hEL
  have hkeys : ((edgeList R C).zip vals).map Prod.fst = edgeList R C :=
    List.map_fst_zip _ _ hle
  have hlt : ∀ e ∈ (edgeList R C).zip vals, e.1.1 < e.1.2 := by
    intro e he
    obtain ⟨a, b⟩ := e
    have h1 : a ∈ edgeList R C := (List.of_mem_zip he).1
    exact isEdge_lt hC (List.mem_filter.mp h1).2
  have hnd : (((edgeList R C).zip vals).map Prod.fst).Nodup := by
    rw [hkeys]
    exact (pairList_nodup _).filter _
  refine ⟨build_coupling_mat_eq R C hC vals hle, ?_, ?_, ?_⟩
  · intro i j
    exact applyEdges_symm ((edgeList R C).zip vals) (fun _ => 0)
      (fun _ _ => rfl) i j
  · intro i
    exact applyEdges_diag _ _ hlt i
  · intro i j hi hj
    constructor
    · intro hMne
      by_contra hadj
      apply hMne
      apply applyEdges_miss
      intro e he
      have h1 : e.1 ∈ edgeList R C := by
        obtain ⟨a, b⟩ := e
        exact (List.of_mem_zip he).1
      have h2 : isEdge C e.1 = true := (List.mem_filter.mp h1).2
      constructor
      · intro hc
        rw [hc] at h2
        exact hadj ((isEdge_iff_adj hC i j).mp h2).1
      · intro hc
        have ha := congrArg Prod.fst hc
        have hb := congrArg Prod.snd hc
        simp only at ha hb
        have he1 : e.1 = (j, i) := by
          have hx : e.1 = (e.1.1, e.1.2) := rfl
          rw [hx, hb, ha]
        rw [he1] at h2
        exact hadj
          ((latticeAdj_symm hC i j).mpr ((isEdge_iff_adj hC j i).mp h2).1)
    · intro hadj
      rcases Nat.lt_trichotomy i j with hij | hij | hij
      · have hE : isEdge C (i, j) = true :=
          (isEdge_iff_adj hC i j).mpr ⟨hadj, hij⟩
        have hmem : (i, j) ∈ edgeList R C :=
          List.mem_filter.mpr ⟨mem_pairList.mpr ⟨hi, hj⟩, hE⟩
        obtain ⟨v, hv, hpair⟩ := zip_entry_of_mem hEL hmem
        rw [applyEdges_hit _ _ (i, j) v _ hpair hlt hnd (Or.inl rfl)]
        exact hnz v hv
      · exfalso
        rw [hij] at hadj
        rw [latticeAdj_decomp hC] at hadj
        omega
      · have hadj' : latticeAdj C j i := (latticeAdj_symm hC i j).mp hadj
        have hE : isEdge C (j, i) = true :=
          (isEdge_iff_adj hC j i).mpr ⟨hadj', hij⟩
        have hmem : (j, i) ∈ edgeList R C :=
          List.mem_filter.mpr ⟨mem_pairList.mpr ⟨hj, hi⟩, hE⟩
        obtain ⟨v, hv, hpair⟩ := zip_entry_of_mem hEL hmem
        rw [applyEdges_hit _ _ (j, i) v _ hpair hlt hnd (Or.inr rfl)]
        exact hnz v hv

/-- Claim C5: every matrix generated by `build_coupling_mats` from a draw
list of the prescribed length `2RC - R - C` with all draws nonzero (the
draws come from a continuous uniform distribution on [0, 2], which avoids 0
almost surely) is symmetric with zero diagonal, is nonzero exactly at the
horizontally or vertically lattice-adjacent index pairs under the linear
indexing `idx = row·Col + col`, and has exactly `2·R·Col - R - Col` nonzero
entries in its upper triangle. -/
theorem claim_C5 (R C : ℕ) (vals : List ℚ) (hR : 1 ≤ R) (hC : 1 ≤ C)
    (hlen : vals.length = 2 * R * C - R - C)
    (hnz : ∀ v ∈ vals, v ≠ 0) :
    ∃ M, build_coupling_mat R C vals = some M ∧
      (∀ i j, M (i, j) = M (j, i)) ∧
      (∀ i, M (i, i) = 0) ∧
      (∀ i j, i < R * C → j < R * C → (M (i, j) ≠ 0 ↔ latticeAdj C i j)) ∧
      ((Finset.range (R * C) ×ˢ Finset.range (R * C)).filter
          fun p => p.1 < p.2 ∧ M p ≠ 0).card = 2 * R * C - R - C := by
  obtain ⟨hbuild, hsymm, hdiag, hchar⟩ :=
    build_coupling_mat_spec R C hR hC vals hlen hnz
  refine ⟨_, hbuild, hsymm, hdiag, hchar, ?_⟩
  rw [← edge_card R C hR hC]
  congr 1
  apply Finset.filter_congr
  intro p hp
  obtain ⟨p1, p2⟩ := p
  simp only [Finset.mem_product, Finset.mem_range] at hp
  constructor
  · rintro ⟨hlt', hne⟩
    exact (isEdge_iff_adj hC p1 p2).mpr
      ⟨(hchar p1 p2 hp.1 hp.2).mp hne, hlt'⟩
  · intro hE
    obtain ⟨hadj, hlt'⟩ := (isEdge_iff_adj hC p1 p2).mp hE
    exact ⟨hlt', (hchar p1 p2 hp.1 hp.2).mpr hadj⟩

/-- Claim C5 witness: the 2×2 lattice with the four draws 1, 2, 3, 4. -/
theorem claim_C5_witness :
    ([(1 : ℚ), 2, 3, 4].length = 2 * 2 * 2 - 2 - 2) ∧
    (∀ v ∈ [(1 : ℚ), 2, 3, 4], v ≠ 0) ∧
    (∃ M, build_coupling_mat 2 2 [(1 : ℚ), 2, 3, 4] = some M ∧
      (∀ i j, M (i, j) = M (j, i)) ∧
      (∀ i, M (i, i) = 0) ∧
      (∀ i j, i < 2 * 2 → j < 2 * 2 → (M (i, j) ≠ 0 ↔ latticeAdj 2 i j)) ∧
      ((Finset.range (2 * 2) ×ˢ Finset.range (2 * 2)).filter
          fun p => p.1 < p.2 ∧ M p ≠ 0).card = 2 * 2 * 2 - 2 - 2) :=
  ⟨by decide, by decide, claim_C5 2 2 [1, 2, 3, 4] (by decide) (by decide)
    (by decide) (by decide)⟩

/-! ### Feature-vector extraction lemmas (C9) -/

lemma edge_zip_lt (R C : ℕ) (hC : 0 < C) (vals : List ℚ) :
    ∀ e ∈ (edgeList R C).zip vals, e.1.1 < e.1.2 := by
  intro e he
  obtain ⟨a, b⟩ := e
  exact isEdge_lt hC (List.mem_filter.mp (List.of_mem_zip he).1).2

lemma edge_zip_nodup (R C : ℕ) (vals : List ℚ)
    (hle : (edgeList R C).length ≤ vals.length) :
    (((edgeList R C).zip vals).map Prod.fst).Nodup := by
  rw [List.map_fst_zip _ _ hle]
  exact (pairList_nodup _).filter _

lemma edgeList_map_applyEdges (R C : ℕ) (hC : 0 < C)
    (vals : List ℚ) (hEL : (edgeList R C).length = vals.length) :
    (edgeList R C).map
      (applyEdges (fun _ => 0) ((edgeList R C).zip vals)) = vals := by
  apply List.ext_getElem
  · rw [List.length_map]
    exact hEL
  · intro m h1 h2
    rw [List.getElem_map]
    have hm : m < (edgeList R C).length := by
      rw [List.length_map] at h1
      exact h1
    have hpair : ((edgeList R C)[m], vals[m]) ∈ (edgeList R C).zip vals := by
      apply List.getElem?_mem
      apply List.getElem?_zip_eq_some.mpr
      exact ⟨List.getElem?_eq_getElem hm, List.getElem?_eq_getElem h2⟩
    exact applyEdges_hit _ _ _ _ _ hpair (edge_zip_lt R C hC vals)
      (edge_zip_nodup R C vals (le_of_eq hEL)) (Or.inl rfl)

lemma nodup_split_unique {α : Type} (a : α) :
    ∀ (s₁ : List α) {s₂ t₁ t₂ : List α},
      (s₁ ++ a :: t₁).Nodup → s₁ ++ a :: t₁ = s₂ ++ a :: t₂ → s₁ = s₂ := by
  intro s₁
  induction s₁ with
  | nil =>
    intro s₂ t₁ t₂ hnd heq
    cases s₂ with
    | nil => rfl
    | cons x s₂' =>
      exfalso
      simp only [List.nil_append, List.cons_append] at heq
      injection heq with h1 h2
      simp only [List.nil_append] at hnd
      apply (List.nodup_cons.mp hnd).1
      rw [h2]
      exact List.mem_append_right _ (List.mem_cons_self a t₂)
  | cons x s₁' ih =>
    intro s₂ t₁ t₂ hnd heq
    cases s₂ with
    | nil =>
      exfalso
      simp only [List.cons_append, List.nil_append] at heq
      injection heq with h1 h2
      simp only [List.cons_append] at hnd
      apply (List.nodup_cons.mp hnd).1
      rw [h1]
      exact List.mem_append_right _ (List.mem_cons_self a t₁)
    | cons y s₂' =>
      simp only [List.cons_append] at heq hnd
      injection heq with h1 h2
      rw [h1, ih (List.nodup_cons.mp hnd).2 h2]

lemma pairList_mirror_mem_pre {n a b : ℕ} (hab : a < b) (hb : b < n)
    {pre post : List (ℕ × ℕ)}
    (heq : pairList n = pre ++ (b, a) :: post) : (a, b) ∈ pre := by
  have hn : 0 < n := by omega
  have hK : b * n + a + 1 ≤ n * n := by
    have h1 : (b + 1) * n ≤ n * n := Nat.mul_le_mul_right n (by omega)
    have h2 : (b + 1) * n = b * n + n := by ring
    omega
  have h1 : n * n = (b * n + a + 1) + (n * n - (b * n + a) - 1) := by omega
  have hfK : ((b * n + a) / n, (b * n + a) % n) = (b, a) := by
    have hd : (b * n + a) / n = b := by
      rw [Nat.mul_comm b n, Nat.mul_add_div hn, Nat.div_eq_of_lt (by omega)]
      omega
    have hm : (b * n + a) % n = a := by
      rw [Nat.mul_comm b n, Nat.mul_add_mod, Nat.mod_eq_of_lt (by omega)]
    rw [hd, hm]
  have hdec : pairList n =
      ((List.range (b * n + a)).map fun t => (t / n, t % n)) ++ (b, a) ::
        (((List.range (n * n - (b * n + a) - 1)).map
          fun t => b * n + a + 1 + t).map fun t => (t / n, t % n)) := by
    rw [pairList_eq_map]
    conv_lhs => rw [h1]
    rw [List.range_add, List.map_append, List.range_succ, List.map_append]
    simp only [List.map_cons, List.map_nil, hfK]
    rw [List.append_assoc]
    rfl
  have hmem : (a, b) ∈ (List.range (b * n + a)).map
      fun t => (t / n, t % n) := by
    apply List.mem_map.mpr
    refine ⟨a * n + b, ?_, ?_⟩
    · rw [List.mem_range]
      have h2 : (a + 1) * n ≤ b * n := Nat.mul_le_mul_right n (by omega)
      have h3 : (a + 1) * n = a * n + n := by ring
      omega
    · have hd : (a * n + b) / n = a := by
        rw [Nat.mul_comm a n, Nat.mul_add_div hn, Nat.div_eq_of_lt hb]
        omega
      have hm : (a * n + b) % n = b := by
        rw [Nat.mul_comm a n, Nat.mul_add_mod, Nat.mod_eq_of_lt hb]
      show ((a * n + b) / n, (a * n + b) % n) = (a, b)
      rw [hd, hm]
  have hpre : pre = (List.range (b * n + a)).map fun t => (t / n, t % n) :=
    nodup_split_unique (b, a) pre (heq ▸ pairList_nodup n)
      (heq.symm.trans hdec)
  rw [hpre]
  exact hmem

lemma extract_fold (M : ℕ × ℕ → ℚ) (eC : ℕ × ℕ → Bool) :
    ∀ (ps : List (ℕ × ℕ)) (acc vs : List ℚ),
      (ps.filter eC).map M = vs →
      (∀ v ∈ vs, v ≠ 0) →
      vs.Nodup →
      (∀ v ∈ vs, v ∉ acc) →
      (∀ pre p post, ps = pre ++ p :: post → eC p = false →
        M p = 0 ∨ M p ∈ acc ∨ M p ∈ (pre.filter eC).map M) →
      (ps.map M).foldl
        (fun acc2 c => if c ≠ 0 ∧ c ∉ acc2 then acc2 ++ [c] else acc2) acc =
        acc ++ vs := by
  intro ps
  induction ps with
  | nil =>
    intro acc vs hvs _ _ _ _
    simp only [List.filter_nil, List.map_nil] at hvs
    rw [← hvs]
    simp
  | cons p t ih =>
    intro acc vs hvs hnz hnd hdisj hmir
    by_cases hE : eC p = true
    · have hfil : (p :: t).filter eC = p :: t.filter eC := by
        simp [List.filter_cons, hE]
      rw [hfil, List.map_cons] at hvs
      subst hvs
      have hzero : M p ≠ 0 := hnz _ (List.mem_cons_self _ _)
      have hnotin : M p ∉ acc := hdisj _ (List.mem_cons_self _ _)
      rw [List.map_cons, List.foldl_cons, if_pos ⟨hzero, hnotin⟩]
      have hdisj' : ∀ v ∈ (t.filter eC).map M, v ∉ acc ++ [M p] := by
        intro v hv
        have h1 : v ∉ acc := hdisj v (List.mem_cons_of_mem _ hv)
        have h2 : v ≠ M p := fun hc =>
          (List.nodup_cons.mp hnd).1 (hc ▸ hv)
        simp [List.mem_append, h1, h2]
      have hmir' : ∀ pre q post, t = pre ++ q :: post → eC q = false →
          M q = 0 ∨ M q ∈ acc ++ [M p] ∨ M q ∈ (pre.filter eC).map M := by
        intro pre q post heq hq
        have h := hmir (p :: pre) q post (by rw [heq]; rfl) hq
        rcases h with h | h | h
        · exact Or.inl h
        · exact Or.inr (Or.inl (List.mem_append_left _ h))
        · have hfp : (p :: pre).filter eC = p :: pre.filter eC := by
            simp [List.filter_cons, hE]
          rw [hfp, List.map_cons] at h
          rcases List.mem_cons.mp h with h2 | h2
          · refine Or.inr (Or.inl ?_)
            rw [h2]
            exact List.mem_append_right _ (List.mem_cons_self _ _)
          · exact Or.inr (Or.inr h2)
      rw [ih (acc ++ [M p]) ((t.filter eC).map M) rfl
        (fun v hv => hnz v (List.mem_cons_of_mem _ hv))
        (List.nodup_cons.mp hnd).2 hdisj' hmir']
      simp
    · have hfil : (p :: t).filter eC = t.filter eC := by
        simp [List.filter_cons, hE]
      rw [hfil] at hvs
      have hEf : eC p = false := by simpa using hE
      have hm := hmir [] p t rfl hEf
      simp only [List.filter_nil, List.map_nil, List.not_mem_nil] at hm
      rw [List.map_cons, List.foldl_cons]
      have hcond : ¬(M p ≠ 0 ∧ M p ∉ acc) := by
        rcases hm with h | h | h
        · intro hc
          exact hc.1 h
        · intro hc
          exact hc.2 h
        · exact absurd h (by simp)
      rw [if_neg hcond]
      have hmir2 : ∀ pre q post, t = pre ++ q :: post → eC q = false →
          M q = 0 ∨ M q ∈ acc ∨ M q ∈ (pre.filter eC).map M := by
        intro pre q post heq hq
        have h := hmir (p :: pre) q post (by rw [heq]; rfl) hq
        rcases h with h | h | h
        · exact Or.inl h
        · exact Or.inr (Or.inl h)
        · have hfp : (p :: pre).filter eC = pre.filter eC := by
            simp [List.filter_cons, hE]
          rw [hfp] at h
          exact Or.inr (Or.inr h)
      exact ih acc vs hvs hnz hnd hdisj hmir2

lemma sum_map_div (l : List ℝ) (c : ℝ) :
    (l.map fun x => x / c).sum = l.sum / c := by
  induction l with
  | nil => simp
  | cons x xs ih => simp [ih, add_div]

lemma l2norm_normalizeVec {l : List ℚ} (hne : l ≠ [])
    (hnz : ∀ v ∈ l, v ≠ 0) : l2norm (normalizeVec l) = 1 := by
  have hS0 : (0 : ℝ) ≤
      ((l.map fun w : ℚ => (w : ℝ)).map fun x => x ^ 2).sum := by
    apply List.sum_nonneg
    intro x hx
    obtain ⟨y, _, rfl⟩ := List.mem_map.mp hx
    exact sq_nonneg y
  have hSpos : 0 <
      ((l.map fun w : ℚ => (w : ℝ)).map fun x => x ^ 2).sum := by
    obtain ⟨v0, l', rfl⟩ := List.exists_cons_of_ne_nil hne
    have hv0 : ((v0 : ℝ)) ^ 2 ∈
        (((v0 :: l').map fun w : ℚ => (w : ℝ)).map fun x => x ^ 2) := by
      simp
    have h1 := List.single_le_sum (l :=
        (((v0 :: l').map fun w : ℚ => (w : ℝ)).map fun x => x ^ 2))
      (fun x hx => by
        obtain ⟨y, _, rfl⟩ := List.mem_map.mp hx
        exact sq_nonneg y) _ hv0
    have h2 : (0 : ℝ) < ((v0 : ℝ)) ^ 2 := by
      have hv : (v0 : ℝ) ≠ 0 := by
        simpa using hnz v0 (List.mem_cons_self _ _)
      positivity
    linarith
  unfold normalizeVec l2norm
  have hmm : ((l.map fun v : ℚ => (v : ℝ) /
        Real.sqrt (((l.map fun w : ℚ => (w : ℝ)).map fun x => x ^ 2).sum)).map
      fun x => x ^ 2) =
      (((l.map fun w : ℚ => (w : ℝ)).map fun x => x ^ 2).map fun x =>
        x / Real.sqrt
          (((l.map fun w : ℚ => (w : ℝ)).map fun x => x ^ 2).sum) ^ 2) := by
    simp only [List.map_map]
    apply List.map_congr_left
    intro v _
    simp only [Function.comp_apply]
    rw [div_pow]
  rw [hmm, sum_map_div, Real.sq_sqrt hS0, div_self (ne_of_gt hSpos)]
  exact Real.sqrt_one

/-- Claim C9: for every generated coupling matrix (with pairwise-distinct
nonzero draws — almost sure for the continuous uniform draw — and a lattice
with at least one edge), the extracted feature vector of `build_dataset`
(lines 563-567) is exactly the draw list `vals` in the generator's
edge-enumeration order: the deduplicated nonzero row-major flattening
equals `vals` (hence has length `2RC - R - C`, one entry per edge, in the
same order for every sample of the same `(R, Col)`), and the normalized
vector has unit Euclidean norm. -/
theorem claim_C9 (R C : ℕ) (vals : List ℚ) (hR : 1 ≤ R) (hC : 1 ≤ C)
    (hRC : 2 ≤ R * C) (hlen : vals.length = 2 * R * C - R - C)
    (hnz : ∀ v ∈ vals, v ≠ 0) (hnd : vals.Nodup) :
    ∃ M, build_coupling_mat R C vals = some M ∧
      extractVec (flattenMat (R * C) M) = vals ∧
      (extractVec (flattenMat (R * C) M)).length = 2 * R * C - R - C ∧
      l2norm (normalizeVec (extractVec (flattenMat (R * C) M))) = 1 := by
  obtain ⟨hbuild, hsymm, _hdiag, _hchar⟩ :=
    build_coupling_mat_spec R C hR hC vals hlen hnz
  set M := applyEdges (fun _ => 0) ((edgeList R C).zip vals) with hMdef
  have hEL : (edgeList R C).length = vals.length := by
    rw [edgeList_length R C hR hC, hlen]
  have hmapM : (edgeList R C).map M = vals :=
    edgeList_map_applyEdges R C hC vals hEL
  have hext : extractVec (flattenMat (R * C) M) = vals := by
    unfold extractVec flattenMat
    have h := extract_fold M (isEdge C) (pairList (R * C)) [] vals hmapM
      hnz hnd (by simp) ?hmir
    · simpa using h
    case hmir =>
      intro pre p post heq hpfalse
      obtain ⟨p1, p2⟩ := p
      by_cases hsw : isEdge C (p2, p1) = true
      · right
        right
        have hp1 : (p1, p2) ∈ pairList (R * C) := by
          rw [heq]
          exact List.mem_append_right _ (List.mem_cons_self _ _)
        have hb := mem_pairList.mp hp1
        have hab : p2 < p1 := isEdge_lt hC hsw
        have hpre : (p2, p1) ∈ pre :=
          pairList_mirror_mem_pre hab hb.1 heq
        have hpreF : (p2, p1) ∈ pre.filter (isEdge C) :=
          List.mem_filter.mpr ⟨hpre, hsw⟩
        have hMp : M (p1, p2) = M (p2, p1) := hsymm p1 p2
        rw [hMp]
        exact List.mem_map_of_mem M hpreF
      · left
        apply applyEdges_miss
        intro e he
        have h1 : e.1 ∈ edgeList R C := by
          obtain ⟨a, b⟩ := e
          exact (List.of_mem_zip he).1
        have h2 : isEdge C e.1 = true := (List.mem_filter.mp h1).2
        constructor
        · intro hc
          rw [hc, hpfalse] at h2
          exact Bool.false_ne_true h2
        · intro hc
          apply hsw
          have ha := congrArg Prod.fst hc
          have hb := congrArg Prod.snd hc
          simp only at ha hb
          have he1 : e.1 = (p2, p1) := by
            have hx : e.1 = (e.1.1, e.1.2) := rfl
            rw [hx, ha, hb]
          rw [← he1]
          exact h2
  have hne : vals ≠ [] := by
    have hpos : 1 ≤ 2 * R * C - R - C := by
      obtain ⟨R', rfl⟩ : ∃ R', R = R' + 1 := ⟨R - 1, by omega⟩
      obtain ⟨C', rfl⟩ : ∃ C', C = C' + 1 := ⟨C - 1, by omega⟩
      have hexp : (R' + 1) * (C' + 1) = R' * C' + R' + C' + 1 := by ring
      have hexp2 : 2 * (R' + 1) * (C' + 1) =
          2 * (R' * C') + 2 * R' + 2 * C' + 2 := by ring
      omega
    intro hcontra
    rw [hcontra] at hlen
    simp at hlen
    omega
  refine ⟨M, hbuild, hext, ?_, ?_⟩
  · rw [hext, hlen]
  · rw [hext]
    exact l2norm_normalizeVec hne hnz

/-- Claim C9 witness: the 2×2 lattice with the four distinct draws
1, 2, 3, 4. -/
theorem claim_C9_witness :
    ([(1 : ℚ), 2, 3, 4].length = 2 * 2 * 2 - 2 - 2) ∧
    ([(1 : ℚ), 2, 3, 4].Nodup) ∧
    (∃ M, build_coupling_mat 2 2 [(1 : ℚ), 2, 3, 4] = some M ∧
      extractVec (flattenMat (2 * 2) M) = [(1 : ℚ), 2, 3, 4] ∧
      (extractVec (flattenMat (2 * 2) M)).length = 2 * 2 * 2 - 2 - 2 ∧
      l2norm (normalizeVec (extractVec (flattenMat (2 * 2) M))) = 1) :=
  ⟨by decide, by decide, claim_C9 2 2 [1, 2, 3, 4] (by decide) (by decide)
    (by decide) (by decide) (by decide) (by decide)⟩

/-! ### Group-count lemmas (C3) -/

lemma pairList_length (n : ℕ) : (pairList n).length = n * n := by
  rw [pairList_eq_map, List.length_map, List.length_range]

lemma qbobs_length (n : ℕ) : (qbobs n).length = 3 * (n * n) := by
  unfold qbobs
  rw [List.length_flatten, List.map_map]
  have h : ((pairList n).map
      (List.length ∘ fun p => corr_function_op p.1 p.2)) =
      (pairList n).map fun _ => 3 := by
    apply List.map_congr_left
    intro p _
    rfl
  rw [h, List.map_const', List.sum_replicate, pairList_length, smul_eq_mul]
  ring

lemma log96_bounds : 9 < 2 * Real.log 96 ∧ 2 * Real.log 96 < 10 := by
  have he1l : (2.7182818283 : ℝ) < Real.exp 1 := Real.exp_one_gt_d9
  have he1u : Real.exp 1 < 2.7182818286 := Real.exp_one_lt_d9
  have hexp9 : Real.exp 9 < 9216 := by
    have h : Real.exp 9 = Real.exp 1 ^ (9 : ℕ) := by
      rw [← Real.exp_nat_mul]
      norm_num
    rw [h]
    calc Real.exp 1 ^ (9 : ℕ) < 2.7182818286 ^ (9 : ℕ) :=
          pow_lt_pow_left₀ he1u (Real.exp_pos 1).le (by norm_num)
    _ < 9216 := by norm_num
  have hexp10 : (9216 : ℝ) < Real.exp 10 := by
    have h : Real.exp 10 = Real.exp 1 ^ (10 : ℕ) := by
      rw [← Real.exp_nat_mul]
      norm_num
    rw [h]
    calc (9216 : ℝ) < 2.7182818283 ^ (10 : ℕ) := by norm_num
    _ ≤ Real.exp 1 ^ (10 : ℕ) := pow_le_pow_left₀ (by norm_num) he1l.le 10
  have hlog : 2 * Real.log 96 = Real.log 9216 := by
    rw [show (9216 : ℝ) = 96 ^ (2 : ℕ) by norm_num, Real.log_pow]
    push_cast
    ring
  constructor
  · rw [hlog, show (9 : ℝ) = Real.log (Real.exp 9) from (Real.log_exp 9).symm]
    exact Real.log_lt_log (Real.exp_pos 9) hexp9
  · rw [hlog,
      show (10 : ℝ) = Real.log (Real.exp 10) from (Real.log_exp 10).symm]
    exact Real.log_lt_log (by norm_num) hexp10

/-- Claim C3: the group count actually used for every median-of-means query
— `k + 1` with `k = int(2·ln(2·M/δ))`, `M = len(qbobs)` and `δ = 1` — is a
value derived from `M` and `δ` by the same formula at both query sites (the
module-level correlation-matrix estimation and inside `build_dataset`), and
it equals `⌈2·ln(2·M/δ)⌉` (= 10 for the `2×2` lattice's `M = 48`
observables), as the claim's formula prescribes. -/
theorem claim_C3 :
    (qbobs (2 * 2)).length = 48 ∧
    kUsedModule = ⌈2 * Real.log (2 * ((qbobs (2 * 2)).length : ℝ) / 1)⌉ ∧
    kUsedDataset 2 2 = ⌈2 * Real.log (2 * ((qbobs (2 * 2)).length : ℝ) / 1)⌉ ∧
    kUsedModule = 10 ∧ kUsedDataset 2 2 = 10 := by
  have hq : (qbobs (2 * 2)).length = 48 := by
    rw [qbobs_length]
  have harg : (2 * ((qbobs (2 * 2)).length : ℝ) / 1) = 96 := by
    rw [hq]
    norm_num
  have hfloor : ⌊2 * Real.log 96⌋ = 9 := by
    rw [Int.floor_eq_iff]
    constructor
    · push_cast
      exact log96_bounds.1.le
    · push_cast
      linarith [log96_bounds.2]
  have hceil : ⌈2 * Real.log 96⌉ = 10 := by
    rw [Int.ceil_eq_iff]
    constructor
    · push_cast
      linarith [log96_bounds.1]
    · push_cast
      exact log96_bounds.2.le
  have hkm : kUsedModule = 10 := by
    unfold kUsedModule shadowK
    rw [harg, hfloor]
    norm_num
  have hkd : kUsedDataset 2 2 = 10 := by
    unfold kUsedDataset shadowK
    rw [harg, hfloor]
    norm_num
  refine ⟨hq, ?_, ?_, hkm, hkd⟩
  · rw [harg, hceil, hkm]
  · rw [harg, hceil, hkd]

/-! ### Degenerate-Hamiltonian fallback (C6) -/

/-- Claim C6: for a coupling matrix with all couplings zero, the
Hamiltonian has no terms, `build_dataset` never invokes the eigensolver
(the selected state is the same for every solver), and the state is the
all-zero amplitude vector `np.zeros(2^n)` — an expected case handled
without error. -/
theorem claim_C6 (n : ℕ) (J : ℕ → ℕ → ℚ) (hJ : ∀ i j, J i j = 0) :
    hamTerms n J = [] ∧
    ∀ solver, groundStateSelect solver n J = psiFallback n := by
  have hterms : hamTerms n J = [] := by
    unfold hamTerms
    apply List.flatMap_eq_nil_iff.mpr
    intro i _
    apply List.flatMap_eq_nil_iff.mpr
    intro j _
    apply List.flatMap_eq_nil_iff.mpr
    intro op _
    rw [if_neg]
    simp [hJ i j]
  refine ⟨hterms, fun solver => ?_⟩
  unfold groundStateSelect
  rw [hterms]
  simp

/-- Claim C6 witness: the all-zero 2×2-lattice coupling matrix with a
concrete (never-consulted) solver. -/
theorem claim_C6_witness :
    hamTerms 2 (fun _ _ => (0 : ℚ)) = [] ∧
    groundStateSelect (fun _ => []) 2 (fun _ _ => (0 : ℚ)) = psiFallback 2 :=
  ⟨(claim_C6 2 (fun _ _ => (0 : ℚ)) fun _ _ => rfl).1,
    (claim_C6 2 (fun _ _ => (0 : ℚ)) fun _ _ => rfl).2 fun _ => []⟩

lemma pairList_two : pairList 2 = [(0, 0), (0, 1), (1, 0), (1, 1)] := by
  decide

/-- Claim C7 is a code bug: on a 2×2 pre-normalization NTK matrix with
diagonal 4 and off-diagonal 2, the in-place loop of lines 648-650 produces
entry (0,1) = 1, because by the time (0,1) is processed the diagonal entry
(0,0) has already been overwritten with 4/√16 = 1, so the loop divides by
√(1·4) = 2 instead of √(4·4) = 4.  The cosine-normalized form the spec
prescribes has entry (0,1) = 2/√16 = 1/2, and 1 ≠ 1/2. -/
theorem claim_C7 :
    ntkNormalize 2 ntkExample (0, 1) = 1 ∧
    ntkExample (0, 1) / Real.sqrt (ntkExample (0, 0) * ntkExample (1, 1)) =
      1 / 2 ∧
    (1 : ℝ) ≠ 1 / 2 := by
  have h00 : ntkExample (0, 0) = 4 := rfl
  have h11 : ntkExample (1, 1) = 4 := rfl
  have h01 : ntkExample (0, 1) = 2 := rfl
  have h16 : Real.sqrt ((4 : ℝ) * 4) = 4 := by
    rw [show ((4 : ℝ) * 4) = 4 ^ 2 by norm_num,
      Real.sqrt_sq (by norm_num : (0 : ℝ) ≤ 4)]
  refine ⟨?_, ?_, by norm_num⟩
  · unfold ntkNormalize
    rw [pairList_two]
    simp only [List.foldl_cons, List.foldl_nil]
    norm_num [ntkExample, Prod.ext_iff]
    have h4 : Real.sqrt (4 : ℝ) = 2 := by
      rw [show ((4 : ℝ)) = 2 ^ 2 by norm_num,
        Real.sqrt_sq (by norm_num : (0 : ℝ) ≤ 2)]
    have hs16 : Real.sqrt (16 : ℝ) = 4 := by
      rw [show ((16 : ℝ)) = 4 ^ 2 by norm_num,
        Real.sqrt_sq (by norm_num : (0 : ℝ) ≤ 4)]
    rw [hs16, h4]
    norm_num
  · rw [h00, h11, h01, h16]
    norm_num

lemma sumsq_nonneg (r : List ℝ) : 0 ≤ (r.map fun x => x ^ 2).sum := by
  apply List.sum_nonneg
  intro x hx
  obtain ⟨y, _, rfl⟩ := List.mem_map.mp hx
  exact sq_nonneg y

lemma l2norm_map_div (r : List ℝ) (c : ℝ) (hc : 0 ≤ c) :
    l2norm (r.map fun x => x / c) = l2norm r / c := by
  unfold l2norm
  have h : ((r.map fun x => x / c).map fun x => x ^ 2) =
      ((r.map fun x => x ^ 2).map fun x => x / c ^ 2) := by
    simp only [List.map_map]
    apply List.map_congr_left
    intro x _
    simp only [Function.comp_apply]
    rw [div_pow]
  rw [h, sum_map_div, Real.sqrt_div (sumsq_nonneg r), Real.sqrt_sq hc]

lemma normalizeRows_unit (K : List (List ℝ)) (h1 : ∀ r ∈ K, l2norm r = 1) :
    normalizeRows K = K := by
  unfold normalizeRows
  conv_rhs => rw [show K = K.map id from (List.map_id K).symm]
  apply List.map_congr_left
  intro r hr
  rw [h1 r hr]
  simp

lemma normalizeRows_idem (K : List (List ℝ))
    (h0 : ∀ r ∈ K, l2norm r ≠ 0) :
    normalizeRows (normalizeRows K) = normalizeRows K := by
  apply normalizeRows_unit
  intro r hr
  obtain ⟨r0, hr0, rfl⟩ := List.mem_map.mp hr
  rw [l2norm_map_div r0 (l2norm r0) (Real.sqrt_nonneg _),
    div_self (h0 r0 hr0)]

lemma fit_predict_data_kernelAfter (O : RegrOracle) (cij : ℕ)
    (kernel : List (List ℝ)) (ye yx : List (List ℝ)) (nX : ℕ) :
    (fit_predict_data O cij kernel ye yx nX).kernelAfter =
      normalizeRows kernel := by
  unfold fit_predict_data
  split <;> rfl

/-- Claim C8 counterexample: after `fit_predict_data` is called on the 1×1
kernel `[[2]]`, the caller's array holds `[[1]]`, not `[[2]]` — the loop at
lines 666-667 (`kernel[idx] /= norm`) normalizes the rows in place, so the
dataset is not read-only across the calls at lines 736-745. -/
theorem claim_C8_counterexample :
    (fit_predict_data oracle0 0 [[2]] [] [] 0).kernelAfter ≠ [[(2 : ℝ)]] := by
  rw [fit_predict_data_kernelAfter]
  have hl : l2norm [(2 : ℝ)] = 2 := by
    unfold l2norm
    norm_num
    rw [show ((4 : ℝ)) = 2 ^ 2 by norm_num,
      Real.sqrt_sq (by norm_num : (0 : ℝ) ≤ 2)]
  have h : normalizeRows [[(2 : ℝ)]] = [[1]] := by
    unfold normalizeRows
    rw [List.map_cons, List.map_nil, List.map_cons, List.map_nil, hl]
    norm_num
  rw [h]
  intro hc
  have h2 := List.head_eq_of_cons_eq hc
  have h3 := List.head_eq_of_cons_eq h2
  norm_num at h3

/-- Claim C8 (amended): `fit_predict_data` does mutate the caller's kernel
array — after the call it holds the row-L2-normalized matrix
`normalizeRows kernel` rather than `kernel`.  The mutation is idempotent
(rows of nonzero norm become unit rows, so a second call leaves the array
fixed), and an already row-normalized kernel is unchanged; this is why the
repeated calls of lines 736-745 still compute the intended double
normalization even though the dataset is not literally read-only. -/
theorem claim_C8_amended (O : RegrOracle) (cij : ℕ)
    (kernel : List (List ℝ)) (ye yx : List (List ℝ)) (nX : ℕ)
    (h0 : ∀ r ∈ kernel, l2norm r ≠ 0) :
    (fit_predict_data O cij kernel ye yx nX).kernelAfter =
      normalizeRows kernel ∧
    (fit_predict_data O cij
        (fit_predict_data O cij kernel ye yx nX).kernelAfter
        ye yx nX).kernelAfter =
      (fit_predict_data O cij kernel ye yx nX).kernelAfter ∧
    ((∀ r ∈ kernel, l2norm r = 1) → normalizeRows kernel = kernel) := by
  refine ⟨fit_predict_data_kernelAfter O cij kernel ye yx nX, ?_,
    normalizeRows_unit kernel⟩
  rw [fit_predict_data_kernelAfter, fit_predict_data_kernelAfter]
  exact normalizeRows_idem kernel h0

/-- Claim C8 witness: the amended theorem applied at the 1×1 kernel
`[[1]]` with the concrete collaborator `oracle0`. -/
theorem claim_C8_witness :
    (∀ r ∈ [[(1 : ℝ)]], l2norm r ≠ 0) ∧
    (fit_predict_data oracle0 0 [[(1 : ℝ)]] [] [] 0).kernelAfter =
      normalizeRows [[(1 : ℝ)]] := by
  have hl : l2norm [(1 : ℝ)] = 1 := by
    unfold l2norm
    norm_num
  have h0 : ∀ r ∈ [[(1 : ℝ)]], l2norm r ≠ 0 := by
    intro r hr
    rw [List.mem_singleton] at hr
    rw [hr, hl]
    norm_num
  exact ⟨h0, (claim_C8_amended oracle0 0 [[(1 : ℝ)]] [] [] 0 h0).1⟩

lemma searchStep_none (O : RegrOracle) (Xtr : List (List ℝ)) (ytr : List ℝ)
    (Xte : List (List ℝ)) (yc : List ℝ) (nT : ℕ) (m : O.Mdl) :
    searchStep O Xtr ytr Xte yc nT none m =
      some (searchEntry O Xtr ytr Xte yc nT m) := rfl

lemma searchStep_some (O : RegrOracle) (Xtr : List (List ℝ)) (ytr : List ℝ)
    (Xte : List (List ℝ)) (yc : List ℝ) (nT : ℕ)
    (b : O.Mdl × List ℝ × ℝ × ℝ) (m : O.Mdl) :
    searchStep O Xtr ytr Xte yc nT (some b) m =
      if -(O.cvMean m Xtr ytr) < b.2.2.1 then
        some (searchEntry O Xtr ytr Xte yc nT m)
      else some b := rfl

lemma searchEntry_cv (O : RegrOracle) (Xtr : List (List ℝ)) (ytr : List ℝ)
    (Xte : List (List ℝ)) (yc : List ℝ) (nT : ℕ) (m : O.Mdl) :
    (searchEntry O Xtr ytr Xte yc nT m).2.2.1 = -(O.cvMean m Xtr ytr) := rfl

lemma searchFold_spec (O : RegrOracle) (Xtr : List (List ℝ)) (ytr : List ℝ)
    (Xte : List (List ℝ)) (yc : List ℝ) (nT : ℕ) :
    ∀ (cands : List O.Mdl) (m0 : O.Mdl),
      ∃ m, (m = m0 ∨ m ∈ cands) ∧
        cands.foldl (searchStep O Xtr ytr Xte yc nT)
            (some (searchEntry O Xtr ytr Xte yc nT m0)) =
          some (searchEntry O Xtr ytr Xte yc nT m) ∧
        -(O.cvMean m Xtr ytr) ≤ -(O.cvMean m0 Xtr ytr) ∧
        ∀ c ∈ cands, -(O.cvMean m Xtr ytr) ≤ -(O.cvMean c Xtr ytr) := by
  intro cands
  induction cands with
  | nil =>
    intro m0
    exact ⟨m0, Or.inl rfl, rfl, le_refl _, by simp⟩
  | cons c rest ih =>
    intro m0
    rw [List.foldl_cons, searchStep_some, searchEntry_cv]
    by_cases hlt : -(O.cvMean c Xtr ytr) < -(O.cvMean m0 Xtr ytr)
    · rw [if_pos hlt]
      obtain ⟨m, hm, hfold, hle, hall⟩ := ih c
      refine ⟨m, ?_, hfold, ?_, ?_⟩
      · rcases hm with rfl | hm
        · exact Or.inr (List.mem_cons_self _ _)
        · exact Or.inr (List.mem_cons_of_mem _ hm)
      · linarith
      · intro x hx
        rcases List.mem_cons.mp hx with rfl | hx
        · exact hle
        · exact hall x hx
    · rw [if_neg hlt]
      obtain ⟨m, hm, hfold, hle, hall⟩ := ih m0
      refine ⟨m, ?_, hfold, hle, ?_⟩
      · rcases hm with rfl | hm
        · exact Or.inl rfl
        · exact Or.inr (List.mem_cons_of_mem _ hm)
      intro x hx
      rcases List.mem_cons.mp hx with rfl | hx
      · linarith [not_lt.mp hlt]
      · exact hall x hx

lemma searchFold_none (O : RegrOracle) (Xtr : List (List ℝ)) (ytr : List ℝ)
    (Xte : List (List ℝ)) (yc : List ℝ) (nT : ℕ) (cands : List O.Mdl)
    (hne : cands ≠ []) :
    ∃ m ∈ cands,
      cands.foldl (searchStep O Xtr ytr Xte yc nT) none =
        some (searchEntry O Xtr ytr Xte yc nT m) ∧
      ∀ c ∈ cands, -(O.cvMean m Xtr ytr) ≤ -(O.cvMean c Xtr ytr) := by
  obtain ⟨c, rest, rfl⟩ := List.exists_cons_of_ne_nil hne
  rw [List.foldl_cons, searchStep_none]
  obtain ⟨m, hm, hfold, hle, hall⟩ := searchFold_spec O Xtr ytr Xte yc nT rest c
  refine ⟨m, ?_, hfold, ?_⟩
  · rcases hm with rfl | hm
    · exact List.mem_cons_self _ _
    · exact List.mem_cons_of_mem _ hm
  · intro x hx
    rcases List.mem_cons.mp hx with rfl | hx
    · exact hle
    · exact hall x hx

lemma l2dist_div_sqrt (a b : List ℝ) (n : ℕ) (hn : a.length = n) :
    l2dist a b / Real.sqrt (n : ℝ) = rmse a b := by
  subst hn
  unfold l2dist rmse
  have hS : (0 : ℝ) ≤ ((a.zip b).map fun pq => (pq.1 - pq.2) ^ 2).sum := by
    apply List.sum_nonneg
    intro x hx
    obtain ⟨pq, _, rfl⟩ := List.mem_map.mp hx
    exact sq_nonneg _
  exact (Real.sqrt_div hS _).symm

/-- Claim C4 (amended): for every collaborator whose `predict` returns one
prediction per test row, `fit_predict_data` enumerates 2 families × 10
regularization values = 20 candidates; the second `train_test_split` call
(on the exact labels) is the same shuffle as the first, so train/test
indices align; the returned clean test labels are the exact-label column
selected by the shared test indices; and some candidate `m` with minimal
cross-validation score over all 20 candidates (scored on the
shadow-estimated training labels) is refitted on the training split and
reported: the returned model, predictions, cv score and test score are
those of `m`, the test score being `np.round(..., 5)` of the RMSE between
the model's test predictions and the exact test labels — i.e. the claim
holds up to that final 5-decimal rounding, which C4 as stated omits. -/
theorem claim_C4_amended (O : RegrOracle) (cij : ℕ)
    (kernel : List (List ℝ)) (ye yx : List (List ℝ)) (nX : ℕ)
    (hOp : ∀ m X, (O.predict m X).length = X.length) :
    (candidates O).length = 20 ∧
    fpdSplitExact O kernel = fpdSplit O kernel ∧
    (fit_predict_data O cij kernel ye yx nX).yTestClean =
      selectIdx (fpdSplit O kernel).2 (yCol yx cij nX) 0 ∧
    ∃ m ∈ candidates O,
      (fit_predict_data O cij kernel ye yx nX).model =
        some (O.fit m (fpdXtr O kernel) (fpdYtr O kernel ye cij nX)) ∧
      (fit_predict_data O cij kernel ye yx nX).pred =
        O.predict (O.fit m (fpdXtr O kernel) (fpdYtr O kernel ye cij nX))
          (fpdXte O kernel) ∧
      (∀ c ∈ candidates O,
        -(O.cvMean m (fpdXtr O kernel) (fpdYtr O kernel ye cij nX)) ≤
          -(O.cvMean c (fpdXtr O kernel) (fpdYtr O kernel ye cij nX))) ∧
      (fit_predict_data O cij kernel ye yx nX).cvScore =
        npRound5 (-(O.cvMean m (fpdXtr O kernel)
          (fpdYtr O kernel ye cij nX))) ∧
      (fit_predict_data O cij kernel ye yx nX).testScore =
        npRound5 (rmse
          (O.predict (O.fit m (fpdXtr O kernel) (fpdYtr O kernel ye cij nX))
            (fpdXte O kernel))
          (fpdYclean O kernel yx cij nX)) := by
  have hlen : (candidates O).length = 20 := rfl
  have hne : candidates O ≠ [] := by
    intro h
    rw [h] at hlen
    simp at hlen
  obtain ⟨m, hmem, hfold, hall⟩ := searchFold_none O (fpdXtr O kernel)
    (fpdYtr O kernel ye cij nX) (fpdXte O kernel)
    (fpdYclean O kernel yx cij nX) (fpdYte O kernel ye cij nX).length
    (candidates O) hne
  have hres : fit_predict_data O cij kernel ye yx nX =
      ⟨some (O.fit m (fpdXtr O kernel) (fpdYtr O kernel ye cij nX)),
        O.predict (O.fit m (fpdXtr O kernel) (fpdYtr O kernel ye cij nX))
          (fpdXte O kernel),
        fpdYclean O kernel yx cij nX,
        npRound5 (-(O.cvMean m (fpdXtr O kernel)
          (fpdYtr O kernel ye cij nX))),
        npRound5 (l2dist
          (O.predict (O.fit m (fpdXtr O kernel) (fpdYtr O kernel ye cij nX))
            (fpdXte O kernel))
          (fpdYclean O kernel yx cij nX) /
          Real.sqrt (((fpdYte O kernel ye cij nX).length : ℝ))),
        normalizeRows kernel⟩ := by
    unfold fit_predict_data
    rw [hfold]
    rfl
  have hn : (O.predict (O.fit m (fpdXtr O kernel)
      (fpdYtr O kernel ye cij nX)) (fpdXte O kernel)).length =
      (fpdYte O kernel ye cij nX).length := by
    rw [hOp]
    unfold fpdXte fpdYte
    simp [selectIdx]
  refine ⟨hlen, rfl, ?_, m, hmem, ?_, ?_, hall, ?_, ?_⟩
  · rw [hres]
    rfl
  · rw [hres]
  · rw [hres]
  · rw [hres]
  · rw [hres]
    show npRound5 (l2dist
        (O.predict (O.fit m (fpdXtr O kernel) (fpdYtr O kernel ye cij nX))
          (fpdXte O kernel))
        (fpdYclean O kernel yx cij nX) /
        Real.sqrt (((fpdYte O kernel ye cij nX).length : ℝ))) = _
    rw [l2dist_div_sqrt _ _ _ hn]

/-- Claim C4 counterexample: the returned held-out test score is
`np.round(..., 5)` of the test RMSE (line 723), not the RMSE itself.  With
the concrete collaborator `oracle0` (predictions identically 0), kernel
rows `[[1], [1]]`, estimated labels all 0 and exact labels `[0, 1/3]`, the
test RMSE is 1/3, an infinite (non-terminating) decimal, so the returned
score 0.33333 differs from it. -/
theorem claim_C4_counterexample :
    (fit_predict_data oracle0 0 [[1], [1]] [[0], [0]] [[0], [1 / 3]]
        2).testScore ≠
      rmse
        (fit_predict_data oracle0 0 [[1], [1]] [[0], [0]] [[0], [1 / 3]]
          2).pred
        (fit_predict_data oracle0 0 [[1], [1]] [[0], [0]] [[0], [1 / 3]]
          2).yTestClean := by
  have hne : candidates oracle0 ≠ [] := by
    intro h
    have h20 : (candidates oracle0).length = 20 := rfl
    rw [h] at h20
    simp at h20
  obtain ⟨m, hmem, hfold, hall⟩ := searchFold_none oracle0
    (fpdXtr oracle0 [[1], [1]]) (fpdYtr oracle0 [[1], [1]] [[0], [0]] 0 2)
    (fpdXte oracle0 [[1], [1]])
    (fpdYclean oracle0 [[1], [1]] [[0], [1 / 3]] 0 2)
    (fpdYte oracle0 [[1], [1]] [[0], [0]] 0 2).length
    (candidates oracle0) hne
  have hres : fit_predict_data oracle0 0 [[1], [1]] [[0], [0]]
      [[0], [1 / 3]] 2 =
      ⟨some (oracle0.fit m (fpdXtr oracle0 [[1], [1]])
          (fpdYtr oracle0 [[1], [1]] [[0], [0]] 0 2)),
        oracle0.predict (oracle0.fit m (fpdXtr oracle0 [[1], [1]])
            (fpdYtr oracle0 [[1], [1]] [[0], [0]] 0 2))
          (fpdXte oracle0 [[1], [1]]),
        fpdYclean oracle0 [[1], [1]] [[0], [1 / 3]] 0 2,
        npRound5 (-(oracle0.cvMean m (fpdXtr oracle0 [[1], [1]])
          (fpdYtr oracle0 [[1], [1]] [[0], [0]] 0 2))),
        npRound5 (l2dist
          (oracle0.predict (oracle0.fit m (fpdXtr oracle0 [[1], [1]])
              (fpdYtr oracle0 [[1], [1]] [[0], [0]] 0 2))
            (fpdXte oracle0 [[1], [1]]))
          (fpdYclean oracle0 [[1], [1]] [[0], [1 / 3]] 0 2) /
          Real.sqrt
            (((fpdYte oracle0 [[1], [1]] [[0], [0]] 0 2).length : ℝ))),
        normalizeRows [[1], [1]]⟩ := by
    unfold fit_predict_data
    rw [hfold]
    rfl
  have hpred : oracle0.predict (oracle0.fit m (fpdXtr oracle0 [[1], [1]])
      (fpdYtr oracle0 [[1], [1]] [[0], [0]] 0 2))
      (fpdXte oracle0 [[1], [1]]) = [0] := rfl
  have hyclean : fpdYclean oracle0 [[1], [1]] [[0], [1 / 3]] 0 2 =
      [(1 / 3 : ℝ)] := rfl
  have hytelen : (fpdYte oracle0 [[1], [1]] [[0], [0]] 0 2).length = 1 := rfl
  have h9 : Real.sqrt (9 : ℝ) = 3 := by
    rw [show ((9 : ℝ)) = 3 ^ 2 by norm_num,
      Real.sqrt_sq (by norm_num : (0 : ℝ) ≤ 3)]
  have hl2 : l2dist [(0 : ℝ)] [(1 / 3 : ℝ)] = 1 / 3 := by
    unfold l2dist
    norm_num
    rw [h9]
    norm_num
  have hrmse : rmse [(0 : ℝ)] [(1 / 3 : ℝ)] = 1 / 3 := by
    unfold rmse
    norm_num
    rw [h9]
    norm_num
  have hfl : ⌊(1 / 3 : ℝ) * 100000⌋ = 33333 := by
    rw [Int.floor_eq_iff]
    push_cast
    norm_num
  have hfr : Int.fract ((1 / 3 : ℝ) * 100000) = 1 / 3 := by
    unfold Int.fract
    rw [hfl]
    norm_num
  have hnp : npRound5 (1 / 3 : ℝ) = 33333 / 100000 := by
    unfold npRound5 npRound
    rw [hfr, if_pos (by norm_num : (1 : ℝ) / 3 < 1 / 2), hfl]
    norm_num
  rw [hres]
  show npRound5 (l2dist
      (oracle0.predict (oracle0.fit m (fpdXtr oracle0 [[1], [1]])
          (fpdYtr oracle0 [[1], [1]] [[0], [0]] 0 2))
        (fpdXte oracle0 [[1], [1]]))
      (fpdYclean oracle0 [[1], [1]] [[0], [1 / 3]] 0 2) /
      Real.sqrt
        (((fpdYte oracle0 [[1], [1]] [[0], [0]] 0 2).length : ℝ))) ≠
    rmse
      (oracle0.predict (oracle0.fit m (fpdXtr oracle0 [[1], [1]])
          (fpdYtr oracle0 [[1], [1]] [[0], [0]] 0 2))
        (fpdXte oracle0 [[1], [1]]))
      (fpdYclean oracle0 [[1], [1]] [[0], [1 / 3]] 0 2)
  rw [hpred, hyclean, hytelen, hl2, hrmse, Nat.cast_one, Real.sqrt_one,
    div_one, hnp]
  norm_num

/-- Claim C4 witness: the amended theorem applied to the concrete
collaborator `oracle0`, whose `predict` returns one value per row. -/
theorem claim_C4_witness :
    (∀ (m : oracle0.Mdl) (X : List (List ℝ)),
      (oracle0.predict m X).length = X.length) ∧
    ((candidates oracle0).length = 20 ∧
    fpdSplitExact oracle0 [[1]] = fpdSplit oracle0 [[1]] ∧
    (fit_predict_data oracle0 0 [[1]] [] [] 1).yTestClean =
      selectIdx (fpdSplit oracle0 [[1]]).2 (yCol [] 0 1) 0 ∧
    ∃ m ∈ candidates oracle0,
      (fit_predict_data oracle0 0 [[1]] [] [] 1).model =
        some (oracle0.fit m (fpdXtr oracle0 [[1]])
          (fpdYtr oracle0 [[1]] [] 0 1)) ∧
      (fit_predict_data oracle0 0 [[1]] [] [] 1).pred =
        oracle0.predict (oracle0.fit m (fpdXtr oracle0 [[1]])
          (fpdYtr oracle0 [[1]] [] 0 1)) (fpdXte oracle0 [[1]]) ∧
      (∀ c ∈ candidates oracle0,
        -(oracle0.cvMean m (fpdXtr oracle0 [[1]])
            (fpdYtr oracle0 [[1]] [] 0 1)) ≤
          -(oracle0.cvMean c (fpdXtr oracle0 [[1]])
            (fpdYtr oracle0 [[1]] [] 0 1))) ∧
      (fit_predict_data oracle0 0 [[1]] [] [] 1).cvScore =
        npRound5 (-(oracle0.cvMean m (fpdXtr oracle0 [[1]])
          (fpdYtr oracle0 [[1]] [] 0 1))) ∧
      (fit_predict_data oracle0 0 [[1]] [] [] 1).testScore =
        npRound5 (rmse
          (oracle0.predict (oracle0.fit m (fpdXtr oracle0 [[1]])
            (fpdYtr oracle0 [[1]] [] 0 1)) (fpdXte oracle0 [[1]]))
          (fpdYclean oracle0 [[1]] [] 0 1))) := by
  have hOp : ∀ (m : oracle0.Mdl) (X : List (List ℝ)),
      (oracle0.predict m X).length = X.length := by
    intro m X
    simp [oracle0]
  exact ⟨hOp, claim_C4_amended oracle0 0 [[1]] [] [] 1 hOp⟩

end MLShadows
